import Mathlib

/-!
# rs-merkle (ComposableFi fork): shallow embedding and verification

This file embeds the core of the repository in Lean 4:

* `src/partial_tree.rs` — `PartialTree::build_tree`, `sorted_concat_and_hash`,
  `unsorted_concat_and_hash`, `merge_unverified`, `upsert_layer`, `depth`,
  `root`, `contains`;
* `src/merkle_proof.rs` — `MerkleProof::root`, `verify`, `to_bytes`,
  `from_bytes` (`TryFrom<&[u8]>`);
* the index arithmetic (`utils::indices`), hex rendering
  (`utils::collections::to_hex_string`) and the staged `MerkleTree`
  (commit / rollback) are not present under `src/`; they are modelled from
  the specification (each such definition is marked `Modelled from the spec:`).

Hashes are byte sequences, modelled as `List Nat`; the hashing capability
(`Hasher::concat_and_hash`) is an explicit function parameter, matching the
code's genericity over `T: Hasher`.  `usize` subtraction is modelled with its
release-mode wrap-around semantics (`usizeSub`), making under-flows visible.
-/

namespace RsMerkle

/-- A hash is a fixed-size byte sequence; bytes are `Nat`s (< 256 in any real
hasher, which the theorems assume only where it matters). -/
abbrev Hash := List Nat

/-- A node of a partial tree: (position within its layer, hash), the Rust
`(usize, T::Hash)` tuple. -/
abbrev Node := Nat × Hash

/-- One layer of a partial tree: `Vec<(usize, T::Hash)>`. -/
abbrev Layer := List Node

/-- The hashing capability's `concatenate_and_hash`: combines a left hash with
an optional right hash.  The core never inspects it. -/
abbrev ConcatFn := Hash → Option Hash → Hash

/-- `error.rs` is not under `src/`.  Modelled from the spec: the error kinds
named in §7 plus the constructor names used by the code in `src/`. -/
inductive Error where
  | notEnoughHelperNodes
  | leavesIndicesCountMismatch
  | notEnoughHashesToCalculateRoot
  | wrongProofSize
  | vecToHashConversionError
  deriving DecidableEq, Repr

/-- `utils::properties::TreeProperties`: the single recognized configuration
option (spec §3). -/
structure TreeProperties where
  sorted_pair_enabled : Bool
  deriving DecidableEq, Repr

/-- Release-mode `usize` subtraction: wraps modulo `2^64`.  Used where the
Rust code subtracts lengths (`merge_unverified`, `depth`). -/
def usizeSub (a b : Nat) : Nat := (a + (2 ^ 64 - b)) % 2 ^ 64

/-! ## Hex rendering (`utils::collections::to_hex_string`)

Not under `src/`.  Modelled from the spec: lowercase hex encoding of each
hash, one byte to two hex digits; strings compare byte-lexicographically
(Rust `String` ordering on ASCII). -/

/-- ASCII code of the lowercase hex digit for a nibble value. -/
def hexDigit (n : Nat) : Nat := if n < 10 then 48 + n else 87 + n

/-- Modelled from the spec: `to_hex_string` — each byte becomes two lowercase
hex digits (high nibble first); the result is the list of ASCII codes. -/
def toHexString : List Nat → List Nat
  | [] => []
  | b :: t => hexDigit (b / 16) :: hexDigit (b % 16) :: toHexString t

/-- Byte-lexicographic strict comparison, Rust's `<` on `String`s of ASCII. -/
def lexLt : List Nat → List Nat → Bool
  | [], [] => false
  | [], _ :: _ => true
  | _ :: _, [] => false
  | a :: as_, b :: bs => if a < b then true else if b < a then false else lexLt as_ bs

/-- The comparison the code performs in `sorted_concat_and_hash`: render both
hashes as lowercase hex and compare the strings. -/
def hexLt (x y : Hash) : Bool := lexLt (toHexString x) (toHexString y)

/-! ## Sorting

The Rust code sorts layers with the stable `sort_by` on the node position;
`List.insertionSort` is stable, so it is a faithful model. -/

/-- Order on nodes by position (the `sort_by(|(a,_),(b,_)| a.cmp(b))` key). -/
def nodeLe (a b : Node) : Prop := a.1 ≤ b.1

/-- Strict version, used to state sortedness with distinct positions. -/
def nodeLt (a b : Node) : Prop := a.1 < b.1

instance : DecidableRel nodeLe := fun a b => Nat.decLe a.1 b.1

instance : IsTotal Node nodeLe := ⟨fun a b => Nat.le_total a.1 b.1⟩

instance : IsTrans Node nodeLe := ⟨fun _ _ _ h h' => Nat.le_trans h h'⟩

instance : IsAntisymm Node nodeLt :=
  ⟨fun _ _ h h' => absurd (Nat.lt_trans h h') (Nat.lt_irrefl _)⟩

/-- `current_layer.sort_by(|(a, _), (b, _)| a.cmp(b))`. -/
def sortByFst (l : Layer) : Layer := List.insertionSort nodeLe l

/-- Stable sort of a list of naturals (used by the modelled index
arithmetic to produce ascending position lists). -/
def sortNat (l : List Nat) : List Nat := List.insertionSort (· ≤ ·) l

/-! ## Index arithmetic (`utils::indices`)

Not under `src/`.  Modelled from the spec, §4.1. -/

/-- Fuelled ceiling base-2 logarithm: `0` for `n ≤ 1`, else one more than the
value at `⌈n/2⌉`.  The fuel only drives termination; `tree_depth_eq_clog`
shows the result is `Nat.clog 2`. -/
def tdGo : Nat → Nat → Nat
  | 0, _ => 0
  | fuel + 1, n => if n ≤ 1 then 0 else tdGo fuel ((n + 1) / 2) + 1

/-- Modelled from the spec: `tree_depth(leaf_count)` returns 0 if
`leaf_count ≤ 1`, else `ceil(log2(leaf_count))` (see `tree_depth_eq_clog`). -/
def tree_depth (leaf_count : Nat) : Nat := tdGo leaf_count leaf_count

/-- Remove adjacent duplicates of a (sorted) list: the deduplication step of
`parent_indices`. -/
def dedupSorted : List Nat → List Nat
  | [] => []
  | [a] => [a]
  | a :: b :: t => if a = b then dedupSorted (b :: t) else a :: dedupSorted (b :: t)

/-- Modelled from the spec: `parent_positions` — the deduplicated, ascending
sequence of `position / 2` of the given child positions. -/
def parent_indices (ps : List Nat) : List Nat :=
  dedupSorted (sortNat (ps.map (· / 2)))

/-- Modelled from the spec: the sibling of a position — toggle the low bit
(`position XOR 1` within the pair). -/
def sibling (p : Nat) : Nat := if p % 2 = 0 then p + 1 else p - 1

/-- Modelled from the spec: the proof positions required at one layer — every
sibling of a known position that is not itself known; a sibling beyond the
layer's node count does not exist in the tree and therefore has no hash to
supply.  Returned ascending. -/
def reqLayer (known : List Nat) (layerLen : Nat) : List Nat :=
  (List.range layerLen).filter (fun s => !known.contains s && known.contains (sibling s))

/-- Modelled from the spec: the per-layer loop of `proof_positions_by_layer` —
record this layer's required siblings, then advance the known set to the
parent positions of everything present and halve the layer length. -/
def piLoop (known : List Nat) (layerLen : Nat) : Nat → List (List Nat)
  | 0 => []
  | d + 1 =>
    let req := reqLayer known layerLen
    req :: piLoop (parent_indices (known ++ req)) ((layerLen + 1) / 2) d

/-- Modelled from the spec: `proof_positions_by_layer(known_leaf_positions,
total_leaf_count)` — one list of required positions per layer, from the leaf
layer up to (but excluding) the root layer. -/
def proof_indices_by_layers (leafIndices : List Nat) (total : Nat) : List (List Nat) :=
  piLoop leafIndices total (tree_depth total)

/-! ## `PartialTree` (`src/partial_tree.rs`) -/

/-- `PartialTree<T>`: an ordered sequence of layers, index 0 = leaves. -/
structure PartialTree where
  layers : List Layer
  deriving DecidableEq, Repr

namespace PartialTree

/-- `PartialTree::new` (also `Default::default`). -/
def new : PartialTree := ⟨[]⟩

/-- `PartialTree::sorted_concat_and_hash`: pushes the parent node onto
`current_layer`, passing first whichever sibling has the smaller lowercase-hex
rendering; errors when the left node is absent. -/
def sortedConcatAndHash (concat : ConcatFn) (leftNode rightNode : Option Hash)
    (currentLayer : Layer) (parentNodeIndex : Nat) : Except Error Layer :=
  match leftNode with
  | some left =>
    match rightNode with
    | some right =>
      if hexLt right left then
        .ok (currentLayer ++ [(parentNodeIndex, concat right (some left))])
      else
        .ok (currentLayer ++ [(parentNodeIndex, concat left (some right))])
    | none => .ok (currentLayer ++ [(parentNodeIndex, concat left none)])
  | none => .error .notEnoughHelperNodes

/-- `PartialTree::unsorted_concat_and_hash`: pushes the parent node in
positional order; errors when the left node is absent. -/
def unsortedConcatAndHash (concat : ConcatFn) (leftNode rightNode : Option Hash)
    (currentLayer : Layer) (parentNodeIndex : Nat) : Except Error Layer :=
  match leftNode with
  | some left => .ok (currentLayer ++ [(parentNodeIndex, concat left rightNode)])
  | none => .error .notEnoughHelperNodes

/-- The `for (i, parent_node_index) in parent_layer_indices.iter().enumerate()`
loop of `build_tree`: the `i`-th parent index takes array slots `i*2` and
`i*2 + 1` of the unzipped node values. -/
def pairNodesGo (props : TreeProperties) (concat : ConcatFn) (nodes : List Hash) :
    Nat → List Nat → Layer → Except Error Layer
  | _, [], acc => .ok acc
  | i, p :: ps, acc =>
    let step :=
      if props.sorted_pair_enabled then
        sortedConcatAndHash concat nodes[i * 2]? nodes[i * 2 + 1]? acc p
      else
        unsortedConcatAndHash concat nodes[i * 2]? nodes[i * 2 + 1]? acc p
    match step with
    | .ok acc' => pairNodesGo props concat nodes (i + 1) ps acc'
    | .error e => .error e

/-- The main loop of `build_tree`: each of `full_tree_depth` iterations pops
the next helper layer, merges it into the working layer, sorts by position,
records the layer, and pairs array slots `(2i, 2i+1)` under the parent
indices; after the loop the final working layer is pushed as the root layer. -/
def buildTreeGo (props : TreeProperties) (concat : ConcatFn) :
    List Layer → Nat → Layer → List Layer → Except Error (List Layer)
  | _, 0, current, acc => .ok (acc ++ [current])
  | helpers, d + 1, current, acc =>
    let merged := sortByFst (current ++ helpers.headD [])
    match pairNodesGo props concat merged.unzip.2 0 (parent_indices merged.unzip.1) [] with
    | .ok next => buildTreeGo props concat helpers.tail d next (acc ++ [merged])
    | .error e => .error e

/-- `PartialTree::build_tree`. -/
def build_tree (props : TreeProperties) (concat : ConcatFn)
    (partialLayers : List Layer) (fullTreeDepth : Nat) : Except Error (List Layer) :=
  buildTreeGo props concat partialLayers fullTreeDepth [] []

/-- `PartialTree::build`. -/
def build (props : TreeProperties) (concat : ConcatFn)
    (partialLayers : List Layer) (depth : Nat) : Except Error PartialTree :=
  (build_tree props concat partialLayers depth).map (⟨·⟩)

/-- `PartialTree::from_leaves`: enumerate the leaves and build to
`tree_depth(leaves.len())`. -/
def from_leaves (props : TreeProperties) (concat : ConcatFn)
    (leaves : List Hash) : Except Error PartialTree :=
  build props concat [leaves.enum] (tree_depth leaves.length)

/-- `PartialTree::depth`: `self.layers.len() - 1` in `usize` arithmetic —
wraps around on a tree with no layers. -/
def depth (t : PartialTree) : Nat := usizeSub t.layers.length 1

/-- `PartialTree::root`: the hash of the first node of the last layer. -/
def root (t : PartialTree) : Option Hash := do
  let lastLayer ← t.layers.getLast?
  let firstNode ← lastLayer.head?
  pure firstNode.2

/-- `PartialTree::contains`. -/
def contains (t : PartialTree) (layerIndex nodeIndex : Nat) : Bool :=
  match t.layers[layerIndex]? with
  | some layer => layer.any (fun nd => nd.1 == nodeIndex)
  | none => false

/-- `PartialTree::upsert_layer`: replace the layer at the index, or push a
new layer when the index is just past the end. -/
def upsertLayer (t : PartialTree) (layerIndex : Nat) (newLayer : Layer) : PartialTree :=
  if layerIndex < t.layers.length then ⟨t.layers.set layerIndex newLayer⟩
  else ⟨t.layers ++ [newLayer]⟩

/-- The layer `merge_unverified` builds for one index: `self`'s nodes at
positions not present in `other`'s same layer, then `other`'s nodes, sorted
(stably) by position.  Reads `t` — the tree as already partially merged, as
the Rust borrows do. -/
def mergeCombinedLayer (t other : PartialTree) (layerIndex : Nat) : Layer :=
  let fromSelf : Layer :=
    match t.layers[layerIndex]? with
    | some selfLayer => selfLayer.filter (fun nd => !other.contains layerIndex nd.1)
    | none => []
  sortByFst (fromSelf ++ (other.layers[layerIndex]?).getD [])

/-- `PartialTree::merge_unverified`.  `other.layers().len() - self.layers().len()`
is `usize` subtraction, modelled with wrap-around (`usizeSub`). -/
def merge_unverified (self other : PartialTree) : PartialTree :=
  (List.range
    (if usizeSub other.layers.length self.layers.length > 0 then
      other.layers.length
    else self.layers.length)).foldl
    (fun t i => upsertLayer t i (mergeCombinedLayer t other i)) self

end PartialTree

/-! ## `MerkleProof` (`src/merkle_proof.rs`) -/

/-- The observable outcome of `MerkleProof::root`: a value, an error value, or
a Rust panic (`Vec::splice` called with a range past the end of the vector). -/
inductive RootOutcome where
  | panics
  | fails (e : Error)
  | succeeds (h : Hash)
  deriving DecidableEq, Repr

namespace MerkleProof

/-- The `for proof_indices in proof_indices_by_layers` loop of
`MerkleProof::root`: `proof_copy.splice(0..len, [])` removes and yields the
first `len` stored hashes — and panics (`none`) when fewer remain. -/
def spliceLayers : List (List Nat) → List Hash → Option (List Layer)
  | [], _ => some []
  | ps :: rest, copy =>
    if copy.length < ps.length then none
    else (spliceLayers rest (copy.drop ps.length)).map
      (fun tl => ps.zip (copy.take ps.length) :: tl)

/-- `MerkleProof::root` (with the `tree_properties` argument its callers in
this repository pass through to `PartialTree::build`). -/
def root (props : TreeProperties) (concat : ConcatFn) (proofHashes : List Hash)
    (leafIndices : List Nat) (leafHashes : List Hash)
    (totalLeavesCount : Nat) : RootOutcome :=
  if leafIndices.length ≠ leafHashes.length then .fails .leavesIndicesCountMismatch
  else
    let treeDepth := tree_depth totalLeavesCount
    let leafTuples := sortByFst (leafIndices.zip leafHashes)
    let pidx := proof_indices_by_layers leafIndices totalLeavesCount
    match spliceLayers pidx proofHashes with
    | none => .panics
    | some proofLayers =>
      let layers :=
        match proofLayers with
        | [] => [leafTuples]
        | first :: restLayers => sortByFst (first ++ leafTuples) :: restLayers
      match PartialTree.build_tree props concat layers treeDepth with
      | .error e => .fails e
      | .ok tree =>
        match PartialTree.root ⟨tree⟩ with
        | some r => .succeeds r
        | none => .fails .notEnoughHashesToCalculateRoot

/-- `MerkleProof::verify`: `true` on a matching reconstructed root, `false` on
a mismatch or an error; `none` models the propagated panic of `root`. -/
def verify (props : TreeProperties) (concat : ConcatFn) (proofHashes : List Hash)
    (expectedRoot : Hash) (leafIndices : List Nat) (leafHashes : List Hash)
    (totalLeavesCount : Nat) : Option Bool :=
  match root props concat proofHashes leafIndices leafHashes totalLeavesCount with
  | .panics => none
  | .fails _ => some false
  | .succeeds extracted => some (decide (extracted = expectedRoot))

/-- `MerkleProof::to_bytes`: the flat concatenation of each hash's raw bytes
in proof order. -/
def to_bytes (proofHashes : List Hash) : List Nat := proofHashes.flatten

/-- The slicing loop of `TryFrom<&[u8]>`: the `i`-th chunk is
`bytes[i*hash_size .. (i+1)*hash_size]`; a chunk that is not exactly
`hash_size` bytes fails the hash conversion. -/
def fromBytesGo (hashSize : Nat) (bytes : List Nat) : Nat → Nat → Except Error (List Hash)
  | 0, _ => .ok []
  | c + 1, i =>
    let slice := (bytes.drop (i * hashSize)).take hashSize
    if slice.length = hashSize then
      match fromBytesGo hashSize bytes c (i + 1) with
      | .ok rest => .ok (slice :: rest)
      | .error e => .error e
    else .error .vecToHashConversionError

/-- `MerkleProof::from_bytes` (`TryFrom<&[u8]>`): reject a byte string whose
length is not a multiple of `hash_size`, then cut it into fixed-width
chunks, one proof hash each. -/
def from_bytes (hashSize : Nat) (bytes : List Nat) : Except Error (List Hash) :=
  if bytes.length % hashSize ≠ 0 then .error .wrongProofSize
  else fromBytesGo hashSize bytes (bytes.length / hashSize) 0

end MerkleProof

/-! ## `MerkleTree` (staged tree with commit / rollback)

`merkle_tree.rs` is not under `src/` (only its tests are).  Modelled from the
spec, §4.4: a committed leaf set (the source of truth for `root()`), a staged
list of leaf hashes, and a history stack of previously committed leaf sets. -/

/-- Modelled from the spec: the Merkle Tree state — committed leaves, staged
(uncommitted) leaves, and the rollback history stack of prior committed leaf
sets. -/
structure MerkleTree where
  committed : List Hash
  staged : List Hash
  history : List (List Hash)
  deriving DecidableEq, Repr

namespace MerkleTree

/-- Modelled from the spec: `MerkleTree::new` — the Empty state. -/
def new : MerkleTree := ⟨[], [], []⟩

/-- Modelled from the spec: `insert(hash)` appends one leaf to the staged
overlay. -/
def insert (t : MerkleTree) (h : Hash) : MerkleTree :=
  { t with staged := t.staged ++ [h] }

/-- Modelled from the spec: `append(hashes)` appends many staged leaves. -/
def append (t : MerkleTree) (hs : List Hash) : MerkleTree :=
  { t with staged := t.staged ++ hs }

/-- Modelled from the spec: `commit` — push the pre-commit committed state
onto the rollback history, fold the staged leaves onto the committed leaf set
(positions continuing from the committed count), and clear the staged
overlay. -/
def commit (t : MerkleTree) : MerkleTree :=
  { committed := t.committed ++ t.staged
    staged := []
    history := t.committed :: t.history }

/-- Modelled from the spec: `rollback` — pop the most recent history entry and
make it the current committed state, discarding changes since that point;
with empty history, a no-op. -/
def rollback (t : MerkleTree) : MerkleTree :=
  match t.history with
  | [] => t
  | h :: rest => { committed := h, staged := [], history := rest }

/-- `n` successive commits. -/
def commitN : Nat → MerkleTree → MerkleTree
  | 0, t => t
  | n + 1, t => commitN n (commit t)

/-- `n` successive rollbacks (applied after whatever `t` already is). -/
def rollbackN : Nat → MerkleTree → MerkleTree
  | 0, t => t
  | n + 1, t => rollback (rollbackN n t)

/-- Modelled from the spec: `root()` — the committed root only: the root of
the Partial Tree built from the committed leaves. -/
def root (props : TreeProperties) (concat : ConcatFn) (t : MerkleTree) : Option Hash :=
  match PartialTree.from_leaves props concat t.committed with
  | .ok pt => pt.root
  | .error _ => none

/-- Modelled from the spec: `leaves()` — the committed leaf hashes in position
order, or `None` if none exist. -/
def leaves (t : MerkleTree) : Option (List Hash) :=
  if t.committed.isEmpty then none else some t.committed

end MerkleTree

/-- Position lookup in a layer: the hash of the (first) node stored at the
given position. -/
def lookupPos (layer : Layer) (p : Nat) : Option Hash :=
  (layer.find? (fun nd => nd.1 == p)).map Prod.snd

/-- Modelled from the spec: `proof(positions)` — the proof hashes extracted
from the committed Partial Tree's layers: for each layer, the node hashes at
exactly the positions `proof_positions_by_layer` identifies, ascending within
a layer, leaf layer first. -/
def proofHashesFor (layers : List Layer) (pidx : List (List Nat)) : List Hash :=
  ((pidx.zip layers).map (fun pr => pr.1.filterMap (lookupPos pr.2))).flatten

/-! ## Specification-side definitions used to state and settle the claims -/

/-- A sample hashing capability for the concrete witnesses: tags each
combination so that distinct shapes stay distinct (stands in for a real
digest, which the core never inspects). -/
def sampleConcat : ConcatFn := fun l r => 255 :: (l ++ r.getD [7])

/-- `merge_unverified` as claim C4 words it: for each layer index present in
either tree, replace `self`'s layer by `self`'s nodes at positions not
present in `other`'s same layer, followed by all of `other`'s nodes for that
layer, sorted ascending by position. -/
def mergeUnverifiedSpec (self other : PartialTree) : PartialTree :=
  ⟨(List.range (max self.layers.length other.layers.length)).map
    (fun i => sortByFst
      (((self.layers[i]?).getD []).filter (fun nd => !other.contains i nd.1) ++
        (other.layers[i]?).getD []))⟩

/-- One parent of the position-directed pairing of claim C6 (see
`pairByPositions`). -/
def pairByPositionsGo (props : TreeProperties) (concat : ConcatFn) (layer : Layer) :
    List Nat → Layer → Except Error Layer
  | [], acc => .ok acc
  | k :: ks, acc =>
    let step :=
      if props.sorted_pair_enabled then
        PartialTree.sortedConcatAndHash concat
          (lookupPos layer (2 * k)) (lookupPos layer (2 * k + 1)) acc k
      else
        PartialTree.unsortedConcatAndHash concat
          (lookupPos layer (2 * k)) (lookupPos layer (2 * k + 1)) acc k
    match step with
    | .ok acc' => pairByPositionsGo props concat layer ks acc'
    | .error e => .error e

/-- The pairing iteration as claim C6 words it: the parent at position `k` is
produced from the nodes stored at positions `2k` and `2k+1` of the working
layer — combined under the pairing policy when both are present, the
single-child rule when the right sibling is absent, an insufficient-nodes
error when the left is absent. -/
def pairByPositions (props : TreeProperties) (concat : ConcatFn) (layer : Layer) :
    Except Error Layer :=
  pairByPositionsGo props concat layer (parent_indices (layer.map Prod.fst)) []

/-- The layer shape under which slot-pairing coincides with position-pairing:
the ascending positions are complete sibling pairs `(2k, 2k+1)`, except that
the final chunk may be a lone left child. -/
def alignedChunks : List Nat → Bool
  | [] => true
  | [p] => decide (p % 2 = 0)
  | p :: q :: t => decide (p % 2 = 0) && decide (q = p + 1) && alignedChunks t

/-- The length of layer `k` of a full tree over `n` leaves: `n` ceiling-halved
`k` times. -/
def lenAt (n : Nat) : Nat → Nat
  | 0 => n
  | k + 1 => (lenAt n k + 1) / 2

/-- The pairing policy applied to a present left child and an optional right
child (the hash `build_tree` records for their parent). -/
def combinePolicy (props : TreeProperties) (concat : ConcatFn)
    (l : Hash) (r? : Option Hash) : Hash :=
  match r? with
  | some r =>
    if props.sorted_pair_enabled then
      if hexLt r l then concat r (some l) else concat l (some r)
    else concat l (some r)
  | none => concat l none

/-- The value of the full tree's node at layer `k`, position `p`, for a tree
over `leaves`: layer 0 is the leaves; the node at `(k+1, q)` combines its
children, the right child present exactly when `2q+1` is inside layer `k`. -/
def nodeVal (props : TreeProperties) (concat : ConcatFn) (leaves : List Hash) :
    Nat → Nat → Hash
  | 0, p => leaves.getD p []
  | k + 1, q =>
    combinePolicy props concat (nodeVal props concat leaves k (2 * q))
      (if 2 * q + 1 < lenAt leaves.length k then
        some (nodeVal props concat leaves k (2 * q + 1))
      else none)

/-- The helper layers above the leaf layer that `MerkleProof::root` builds
from the stored proof hashes: at each level the required sibling positions
paired with the full tree's node values there, following exactly the
recursion of `piLoop`.  `f j p` is the full tree's value at layer `j`,
position `p`; `n` the total leaf count. -/
def reqLayers (f : Nat → Nat → Hash) (n : Nat) : Nat → List Nat → Nat → List Layer
  | _, _, 0 => []
  | k, known, d + 1 =>
    (reqLayer known (lenAt n k)).map (fun p => (p, f k p)) ::
      reqLayers f n (k + 1)
        (parent_indices (known ++ reqLayer known (lenAt n k))) d

/-! # Helper lemmas -/

theorem tdGo_fuel : ∀ f₁ f₂ n : Nat, n ≤ f₁ → n ≤ f₂ → tdGo f₁ n = tdGo f₂ n := by
  intro f₁
  induction f₁ with
  | zero =>
    intro f₂ n h1 _
    have hn : n = 0 := Nat.le_zero.mp h1
    subst hn
    cases f₂ with
    | zero => rfl
    | succ f₂ => simp [tdGo]
  | succ f ih =>
    intro f₂ n h1 h2
    by_cases hle : n ≤ 1
    · cases f₂ with
      | zero =>
        have hn : n = 0 := by omega
        subst hn
        simp [tdGo]
      | succ f₂ => simp [tdGo, hle]
    · cases f₂ with
      | zero => omega
      | succ f₂ =>
        simp only [tdGo, if_neg hle]
        rw [ih f₂ ((n + 1) / 2) (by omega) (by omega)]

theorem tree_depth_le_one {n : Nat} (h : n ≤ 1) : tree_depth n = 0 := by
  interval_cases n <;> rfl

theorem tree_depth_two_le {n : Nat} (h : 2 ≤ n) :
    tree_depth n = tree_depth ((n + 1) / 2) + 1 := by
  obtain ⟨f, rfl⟩ : ∃ f, n = f + 1 := ⟨n - 1, by omega⟩
  show tdGo (f + 1) (f + 1) = _
  simp only [tdGo, if_neg (by omega : ¬ f + 1 ≤ 1)]
  congr 1
  exact tdGo_fuel f ((f + 2) / 2) ((f + 2) / 2) (by omega) le_rfl

/-- Fidelity of the modelled `tree_depth` to the spec's `ceil(log2)`. -/
theorem tree_depth_eq_clog (n : Nat) : tree_depth n = Nat.clog 2 n := by
  induction n using Nat.strong_induction_on with
  | _ n ih =>
    by_cases h : n ≤ 1
    · rw [tree_depth_le_one h]
      interval_cases n <;> simp
    · have h2 : 2 ≤ n := by omega
      rw [tree_depth_two_le h2, Nat.clog_of_two_le (by norm_num) h2]
      have harg : (n + 2 - 1) / 2 = (n + 1) / 2 := by omega
      rw [harg]
      rw [ih ((n + 1) / 2) (by omega)]

theorem lenAt_shift (n k : Nat) : lenAt n (k + 1) = lenAt ((n + 1) / 2) k := by
  induction k with
  | zero => rfl
  | succ k ih => show (lenAt n (k + 1) + 1) / 2 = _; rw [ih]; rfl

theorem lenAt_tree_depth {n : Nat} (h : 1 ≤ n) : lenAt n (tree_depth n) = 1 := by
  induction n using Nat.strong_induction_on with
  | _ n ih =>
    by_cases h1 : n = 1
    · subst h1; rfl
    · have h2 : 2 ≤ n := by omega
      rw [tree_depth_two_le h2, lenAt_shift]
      exact ih ((n + 1) / 2) (by omega) (by omega)

theorem lenAt_pos {n : Nat} (h : 1 ≤ n) (k : Nat) : 1 ≤ lenAt n k := by
  induction k with
  | zero => exact h
  | succ k ih => show 1 ≤ (lenAt n k + 1) / 2; omega

/-! # Claim C10 — `PartialTree::depth` -/

/-- C10: `depth()` equals the number of stored layers minus one whenever the
tree has at least one layer; on a tree with no layers (as freshly constructed
by `new()`), the computation `self.layers.len() - 1` under-flows `usize`
(modelled as release-mode wrap-around, producing `2^64 - 1`), so `depth()` is
not total without the at-least-one-layer precondition. -/
theorem depth_total_only_with_layers :
    (∀ t : PartialTree, t.layers ≠ [] → t.layers.length < 2 ^ 64 →
      t.depth = t.layers.length - 1) ∧
    PartialTree.new.layers = [] ∧
    PartialTree.new.depth = 2 ^ 64 - 1 := by
  refine ⟨fun t hne hlt => ?_, rfl, by decide⟩
  have hlen : 1 ≤ t.layers.length := List.length_pos.mpr hne
  show (t.layers.length + (2 ^ 64 - 1)) % 2 ^ 64 = t.layers.length - 1
  have hp : (2 : Nat) ^ 64 = 18446744073709551616 := by norm_num
  omega

/-- Witness for C10 at a concrete one-layer tree. -/
theorem depth_total_only_with_layers_witness :
    PartialTree.depth ⟨[[(0, [1])]]⟩ = 0 := by
  have h := depth_total_only_with_layers.1 ⟨[[(0, [1])]]⟩ (by decide) (by norm_num)
  simpa using h

/-! # Claims C7 and C8 — proof serialization -/

theorem fromBytesGo_shift (hs : Nat) :
    ∀ c (bytes : List Nat) i, MerkleProof.fromBytesGo hs bytes c i =
      MerkleProof.fromBytesGo hs (bytes.drop (i * hs)) c 0 := by
  intro c
  induction c with
  | zero => intro bytes i; rfl
  | succ c ih =>
    intro bytes i
    have hdrop : (bytes.drop (i * hs)).drop (1 * hs) = bytes.drop ((i + 1) * hs) := by
      rw [List.drop_drop]; congr 1; ring
    simp only [MerkleProof.fromBytesGo, Nat.zero_mul, List.drop_zero]
    rw [ih bytes (i + 1), ih (bytes.drop (i * hs)) 1, hdrop]

theorem flatten_length_uniform {hs : Nat} :
    ∀ {p : List Hash}, (∀ h ∈ p, h.length = hs) → p.flatten.length = p.length * hs := by
  intro p
  induction p with
  | nil => intro _; simp
  | cons h t ih =>
    intro hlen
    simp only [List.flatten_cons, List.length_append, List.length_cons,
      hlen h (by simp), ih fun x hx => hlen x (by simp [hx])]
    ring

theorem fromBytesGo_flatten (hs : Nat) :
    ∀ p : List Hash, (∀ h ∈ p, h.length = hs) →
      MerkleProof.fromBytesGo hs p.flatten p.length 0 = .ok p := by
  intro p
  induction p with
  | nil => intro _; rfl
  | cons h t ih =>
    intro hlen
    have hh : h.length = hs := hlen h (by simp)
    show (if (((h :: t).flatten.drop (0 * hs)).take hs).length = hs then _ else _) = _
    have htake : ((h :: t).flatten.drop (0 * hs)).take hs = h := by
      simp only [Nat.zero_mul, List.drop_zero, List.flatten_cons]
      rw [← hh, List.take_left]
    rw [htake, if_pos hh, fromBytesGo_shift]
    have hdrop : (h :: t).flatten.drop (1 * hs) = t.flatten := by
      simp only [List.flatten_cons, Nat.one_mul, ← hh, List.drop_left]
    rw [hdrop, ih fun x hx => hlen x (by simp [hx])]

/-- C7: proof serialization round-trips — for every proof whose hashes have
the capability's fixed hash size, `from_bytes(to_bytes(p))` succeeds and
yields exactly `p`'s ordered hash sequence. -/
theorem proof_serialization_round_trip (hs : Nat) (p : List Hash)
    (hpos : 0 < hs) (hlen : ∀ h ∈ p, h.length = hs) :
    MerkleProof.from_bytes hs (MerkleProof.to_bytes p) = .ok p := by
  have hflat : (MerkleProof.to_bytes p).length = p.length * hs :=
    flatten_length_uniform hlen
  have hmod : (MerkleProof.to_bytes p).length % hs = 0 := by
    rw [hflat]; exact Nat.mul_mod_left p.length hs
  have hdiv : (MerkleProof.to_bytes p).length / hs = p.length := by
    rw [hflat]; exact Nat.mul_div_cancel p.length hpos
  show (if _ ≠ 0 then _ else _) = _
  rw [if_neg (by simp [hmod]), hdiv]
  exact fromBytesGo_flatten hs p hlen

/-- Witness for C7 at a concrete two-hash proof. -/
theorem proof_serialization_round_trip_witness :
    MerkleProof.from_bytes 2 (MerkleProof.to_bytes [[1, 2], [3, 4]]) = .ok [[1, 2], [3, 4]] :=
  proof_serialization_round_trip 2 [[1, 2], [3, 4]] (by decide) (by decide)

theorem fromBytesGo_ok_of_bound (hs : Nat) (bytes : List Nat) :
    ∀ c i, (c + i) * hs ≤ bytes.length →
      MerkleProof.fromBytesGo hs bytes c i =
        .ok ((List.range c).map fun j => (bytes.drop ((i + j) * hs)).take hs) := by
  intro c
  induction c with
  | zero => intro i _; rfl
  | succ c ih =>
    intro i hbound
    have h1 : (i + 1) * hs ≤ bytes.length :=
      le_trans (Nat.mul_le_mul_right hs (by omega)) hbound
    have h2 : i * hs + hs ≤ bytes.length := by rw [← Nat.succ_mul]; exact h1
    have hslice : ((bytes.drop (i * hs)).take hs).length = hs := by
      simp only [List.length_take, List.length_drop]
      generalize i * hs = a at h2 ⊢
      omega
    have hb' : (c + (i + 1)) * hs ≤ bytes.length := by
      have he : c + (i + 1) = c + 1 + i := by omega
      rw [he]; exact hbound
    show (if ((bytes.drop (i * hs)).take hs).length = hs then _ else _) = _
    rw [if_pos hslice, ih (i + 1) hb']
    rw [List.range_succ_eq_map]
    simp only [List.map_cons, List.map_map, Nat.add_zero]
    congr 1
    congr 1
    apply List.map_congr_left
    intro j _
    simp only [Function.comp_apply, Nat.succ_eq_add_one]
    have he : i + 1 + j = i + (j + 1) := by omega
    rw [he]

/-- C8: `from_bytes(bytes)` fails with the malformed-proof error exactly when
`bytes.len()` is not a multiple of `hash_size()`; otherwise it succeeds and
each consecutive `hash_size()`-byte chunk becomes one proof hash, in order. -/
theorem from_bytes_chunks (hs : Nat) (bytes : List Nat) (hpos : 0 < hs) :
    (MerkleProof.from_bytes hs bytes = .error .wrongProofSize ↔
      bytes.length % hs ≠ 0) ∧
    (bytes.length % hs = 0 →
      MerkleProof.from_bytes hs bytes =
        .ok ((List.range (bytes.length / hs)).map fun j =>
          (bytes.drop (j * hs)).take hs)) := by
  have hok : bytes.length % hs = 0 →
      MerkleProof.from_bytes hs bytes =
        .ok ((List.range (bytes.length / hs)).map fun j =>
          (bytes.drop (j * hs)).take hs) := by
    intro hmod
    show (if _ ≠ 0 then _ else _) = _
    rw [if_neg (by simp [hmod])]
    have hbound : (bytes.length / hs + 0) * hs ≤ bytes.length := by
      simpa using Nat.div_mul_le_self bytes.length hs
    rw [fromBytesGo_ok_of_bound hs bytes (bytes.length / hs) 0 hbound]
    simp
  refine ⟨⟨fun herr => ?_, fun hne => ?_⟩, hok⟩
  · by_contra hmod
    rw [hok (by omega)] at herr
    exact Except.noConfusion herr
  · show (if _ ≠ 0 then _ else _) = _
    rw [if_pos hne]

/-- Witness for C8: a 4-byte string chunks into two 2-byte hashes; a 3-byte
string is rejected. -/
theorem from_bytes_chunks_witness :
    MerkleProof.from_bytes 2 [1, 2, 3, 4] = .ok [[1, 2], [3, 4]] ∧
    MerkleProof.from_bytes 2 [1, 2, 3] = .error .wrongProofSize := by
  constructor
  · rw [(from_bytes_chunks 2 [1, 2, 3, 4] (by decide)).2 (by decide)]
    rfl
  · exact (from_bytes_chunks 2 [1, 2, 3] (by decide)).1.mpr (by decide)

/-! # Claim C5 — sorted pairing is commutative -/

theorem lexLt_asymm : ∀ x y : List Nat, lexLt x y = true → lexLt y x = false := by
  intro x
  induction x with
  | nil =>
    intro y h
    cases y with
    | nil => simp [lexLt] at h
    | cons b bs => rfl
  | cons a as ih =>
    intro y h
    cases y with
    | nil => simp [lexLt] at h
    | cons b bs =>
      rcases Nat.lt_trichotomy a b with h1 | h1 | h1
      · show (if b < a then true else if a < b then false else lexLt bs as) = false
        rw [if_neg (by omega : ¬ b < a), if_pos h1]
      · subst h1
        simp only [lexLt, lt_irrefl, if_false] at h ⊢
        exact ih bs h
      · simp [lexLt, h1, Nat.lt_asymm h1] at h

theorem lexLt_eq_of_both_false :
    ∀ x y : List Nat, lexLt x y = false → lexLt y x = false → x = y := by
  intro x
  induction x with
  | nil =>
    intro y h _
    cases y with
    | nil => rfl
    | cons b bs => simp [lexLt] at h
  | cons a as ih =>
    intro y h h'
    cases y with
    | nil => simp [lexLt] at h'
    | cons b bs =>
      rcases Nat.lt_trichotomy a b with h1 | h1 | h1
      · simp [lexLt, h1] at h
      · subst h1
        simp only [lexLt, lt_irrefl, if_false] at h h'
        rw [ih bs h h']
      · simp [lexLt, h1] at h'

theorem hexDigit_inj {m n : Nat} (h : hexDigit m = hexDigit n) : m = n := by
  unfold hexDigit at h
  split_ifs at h <;> omega

theorem toHexString_inj : ∀ x y : Hash, toHexString x = toHexString y → x = y := by
  intro x
  induction x with
  | nil =>
    intro y h
    cases y with
    | nil => rfl
    | cons b bs => simp [toHexString] at h
  | cons a as ih =>
    intro y h
    cases y with
    | nil => simp [toHexString] at h
    | cons b bs =>
      simp only [toHexString, List.cons.injEq] at h
      obtain ⟨h1, h2, h3⟩ := h
      have e1 : a / 16 = b / 16 := hexDigit_inj h1
      have e2 : a % 16 = b % 16 := hexDigit_inj h2
      have : a = b := by omega
      rw [this, ih bs h3]

theorem hexLt_asymm {a b : Hash} (h : hexLt a b = true) : hexLt b a = false :=
  lexLt_asymm _ _ h

theorem hexLt_eq_of_both_false {a b : Hash} (h : hexLt a b = false)
    (h' : hexLt b a = false) : a = b :=
  toHexString_inj a b (lexLt_eq_of_both_false _ _ h h')

/-- C5: with `sorted_pair_enabled`, the parent of two sibling hashes is
order-independent — `sorted_concat_and_hash` pushes the same node either way
round — and equals `concatenate_and_hash` applied with the hash whose
lowercase-hex rendering is lexicographically smaller passed first. -/
theorem sorted_pair_commutative (concat : ConcatFn) (a b : Hash) (acc : Layer) (k : Nat) :
    PartialTree.sortedConcatAndHash concat (some a) (some b) acc k =
      PartialTree.sortedConcatAndHash concat (some b) (some a) acc k ∧
    (hexLt a b = true →
      PartialTree.sortedConcatAndHash concat (some a) (some b) acc k =
        .ok (acc ++ [(k, concat a (some b))])) ∧
    (hexLt b a = true →
      PartialTree.sortedConcatAndHash concat (some a) (some b) acc k =
        .ok (acc ++ [(k, concat b (some a))])) := by
  cases hba : hexLt b a with
  | true =>
    have hab : hexLt a b = false := hexLt_asymm hba
    refine ⟨?_, fun h => ?_, fun _ => ?_⟩
    · simp [PartialTree.sortedConcatAndHash, hba, hab]
    · rw [hab] at h; exact Bool.noConfusion h
    · simp [PartialTree.sortedConcatAndHash, hba]
  | false =>
    cases hab : hexLt a b with
    | true =>
      refine ⟨?_, fun _ => ?_, fun h => Bool.noConfusion h⟩
      · simp [PartialTree.sortedConcatAndHash, hba, hab]
      · simp [PartialTree.sortedConcatAndHash, hba]
    | false =>
      have heq : a = b := hexLt_eq_of_both_false hab hba
      subst heq
      exact ⟨rfl, fun h => Bool.noConfusion h, fun h => Bool.noConfusion h⟩

/-- Witness for C5 at two concrete hashes under the sample capability. -/
theorem sorted_pair_commutative_witness :
    hexLt [1] [2] = true ∧
    PartialTree.sortedConcatAndHash sampleConcat (some [1]) (some [2]) [] 0 =
      .ok [(0, sampleConcat [1] (some [2]))] :=
  ⟨by decide, (sorted_pair_commutative sampleConcat [1] [2] [] 0).2.1 (by decide)⟩

/-! # Claim C9 — build failure mode -/

theorem sortedConcatAndHash_cases (concat : ConcatFn) (l? r? : Option Hash)
    (acc : Layer) (k : Nat) :
    (∃ acc', PartialTree.sortedConcatAndHash concat l? r? acc k = .ok acc') ∨
      PartialTree.sortedConcatAndHash concat l? r? acc k = .error .notEnoughHelperNodes := by
  cases l? with
  | none => exact Or.inr rfl
  | some l =>
    cases r? with
    | none => exact Or.inl ⟨_, rfl⟩
    | some r =>
      cases hrl : hexLt r l with
      | true =>
        refine Or.inl ⟨acc ++ [(k, concat r (some l))], ?_⟩
        simp [PartialTree.sortedConcatAndHash, hrl]
      | false =>
        refine Or.inl ⟨acc ++ [(k, concat l (some r))], ?_⟩
        simp [PartialTree.sortedConcatAndHash, hrl]

theorem unsortedConcatAndHash_cases (concat : ConcatFn) (l? r? : Option Hash)
    (acc : Layer) (k : Nat) :
    (∃ acc', PartialTree.unsortedConcatAndHash concat l? r? acc k = .ok acc') ∨
      PartialTree.unsortedConcatAndHash concat l? r? acc k = .error .notEnoughHelperNodes := by
  cases l? with
  | none => exact Or.inr rfl
  | some l => exact Or.inl ⟨_, rfl⟩

theorem pairNodesGo_cases (props : TreeProperties) (concat : ConcatFn) (nodes : List Hash) :
    ∀ (ps : List Nat) (i : Nat) (acc : Layer),
      (∃ l, PartialTree.pairNodesGo props concat nodes i ps acc = .ok l) ∨
        PartialTree.pairNodesGo props concat nodes i ps acc =
          .error .notEnoughHelperNodes := by
  intro ps
  induction ps with
  | nil => intro i acc; exact Or.inl ⟨acc, rfl⟩
  | cons p ps ih =>
    intro i acc
    cases hs : props.sorted_pair_enabled with
    | true =>
      rcases sortedConcatAndHash_cases concat nodes[i * 2]? nodes[i * 2 + 1]?
          acc p with ⟨acc', hok⟩ | herr
      · have he : PartialTree.pairNodesGo props concat nodes i (p :: ps) acc =
            PartialTree.pairNodesGo props concat nodes (i + 1) ps acc' := by
          simp [PartialTree.pairNodesGo, hs, hok]
        rw [he]; exact ih (i + 1) acc'
      · have he : PartialTree.pairNodesGo props concat nodes i (p :: ps) acc =
            .error .notEnoughHelperNodes := by
          simp [PartialTree.pairNodesGo, hs, herr]
        rw [he]; exact Or.inr rfl
    | false =>
      rcases unsortedConcatAndHash_cases concat nodes[i * 2]? nodes[i * 2 + 1]?
          acc p with ⟨acc', hok⟩ | herr
      · have he : PartialTree.pairNodesGo props concat nodes i (p :: ps) acc =
            PartialTree.pairNodesGo props concat nodes (i + 1) ps acc' := by
          simp [PartialTree.pairNodesGo, hs, hok]
        rw [he]; exact ih (i + 1) acc'
      · have he : PartialTree.pairNodesGo props concat nodes i (p :: ps) acc =
            .error .notEnoughHelperNodes := by
          simp [PartialTree.pairNodesGo, hs, herr]
        rw [he]; exact Or.inr rfl

theorem buildTreeGo_cases (props : TreeProperties) (concat : ConcatFn) :
    ∀ (depth : Nat) (helpers : List Layer) (current : Layer) (acc : List Layer),
      (∃ layers, PartialTree.buildTreeGo props concat helpers depth current acc = .ok layers) ∨
        PartialTree.buildTreeGo props concat helpers depth current acc =
          .error .notEnoughHelperNodes := by
  intro depth
  induction depth with
  | zero => intro helpers current acc; exact Or.inl ⟨_, rfl⟩
  | succ d ih =>
    intro helpers current acc
    rcases pairNodesGo_cases props concat
        (sortByFst (current ++ helpers.headD [])).unzip.2
        (parent_indices (sortByFst (current ++ helpers.headD [])).unzip.1) 0 [] with
      ⟨l, hok⟩ | herr
    · have he : PartialTree.buildTreeGo props concat helpers (d + 1) current acc =
          PartialTree.buildTreeGo props concat helpers.tail d l
            (acc ++ [sortByFst (current ++ helpers.headD [])]) := by
        simp only [PartialTree.buildTreeGo, hok]
      rw [he]; exact ih helpers.tail l _
    · have he : PartialTree.buildTreeGo props concat helpers (d + 1) current acc =
          .error .notEnoughHelperNodes := by
        simp only [PartialTree.buildTreeGo, herr]
      rw [he]; exact Or.inr rfl

/-- C9: `PartialTree::build` is total (no panic is possible in the model) and
its only failure is the `InsufficientNodes` error value, produced exactly by
a pairing step that finds no left node for a parent it must produce. -/
theorem build_fails_only_insufficient_nodes (props : TreeProperties) (concat : ConcatFn)
    (partialLayers : List Layer) (depth : Nat) :
    ((∃ t, PartialTree.build props concat partialLayers depth = .ok t) ∨
      PartialTree.build props concat partialLayers depth =
        .error .notEnoughHelperNodes) ∧
    (∀ r? acc k, PartialTree.sortedConcatAndHash concat none r? acc k =
      .error .notEnoughHelperNodes) ∧
    (∀ r? acc k, PartialTree.unsortedConcatAndHash concat none r? acc k =
      .error .notEnoughHelperNodes) := by
  refine ⟨?_, fun _ _ _ => rfl, fun _ _ _ => rfl⟩
  unfold PartialTree.build PartialTree.build_tree
  rcases buildTreeGo_cases props concat depth partialLayers [] [] with ⟨layers, hok⟩ | herr
  · rw [hok]; exact Or.inl ⟨_, rfl⟩
  · rw [herr]; exact Or.inr rfl

/-! # Claim C3 — commit / rollback inverse law -/

theorem rollbackN_commitN (n : Nat) : ∀ s : MerkleTree,
    MerkleTree.rollbackN n (MerkleTree.commitN n s) =
      ⟨s.committed, if n = 0 then s.staged else [], s.history⟩ := by
  induction n with
  | zero => intro s; rfl
  | succ n ih =>
    intro s
    show MerkleTree.rollback (MerkleTree.rollbackN n (MerkleTree.commitN n s.commit)) = _
    rw [ih s.commit]
    cases n with
    | zero => rfl
    | succ m => rfl

theorem root_eq_of_committed_eq (props : TreeProperties) (concat : ConcatFn)
    {t₁ t₂ : MerkleTree} (h : t₁.committed = t₂.committed) :
    MerkleTree.root props concat t₁ = MerkleTree.root props concat t₂ := by
  unfold MerkleTree.root
  rw [h]

theorem leaves_eq_of_committed_eq {t₁ t₂ : MerkleTree} (h : t₁.committed = t₂.committed) :
    t₁.leaves = t₂.leaves := by
  unfold MerkleTree.leaves
  rw [h]

/-- C3: for every tree state, `commit` followed immediately by `rollback`
restores `root` and `leaves` to their pre-commit values, and `n` commits
followed by `n` rollbacks restore the root and leaves that preceded the
first of those commits. -/
theorem commit_rollback_inverse (props : TreeProperties) (concat : ConcatFn) :
    (∀ t : MerkleTree,
      MerkleTree.root props concat (MerkleTree.rollback (MerkleTree.commit t)) =
        MerkleTree.root props concat t ∧
      MerkleTree.leaves (MerkleTree.rollback (MerkleTree.commit t)) =
        MerkleTree.leaves t) ∧
    (∀ (n : Nat) (t : MerkleTree),
      MerkleTree.root props concat (MerkleTree.rollbackN n (MerkleTree.commitN n t)) =
        MerkleTree.root props concat t ∧
      MerkleTree.leaves (MerkleTree.rollbackN n (MerkleTree.commitN n t)) =
        MerkleTree.leaves t) := by
  have key : ∀ (n : Nat) (t : MerkleTree),
      (MerkleTree.rollbackN n (MerkleTree.commitN n t)).committed = t.committed := by
    intro n t
    rw [rollbackN_commitN n t]
  have main : ∀ (n : Nat) (t : MerkleTree),
      MerkleTree.root props concat (MerkleTree.rollbackN n (MerkleTree.commitN n t)) =
        MerkleTree.root props concat t ∧
      MerkleTree.leaves (MerkleTree.rollbackN n (MerkleTree.commitN n t)) =
        MerkleTree.leaves t :=
    fun n t => ⟨root_eq_of_committed_eq props concat (key n t),
      leaves_eq_of_committed_eq (key n t)⟩
  exact ⟨fun t => main 1 t, main⟩

/-! # Claim C4 — `merge_unverified` -/

theorem set_append_length {α : Type _} (l₁ : List α) (x : α) (rest : List α) (y : α)
    (i : Nat) (h : i = l₁.length) : (l₁ ++ x :: rest).set i y = l₁ ++ y :: rest := by
  subst h
  rw [List.set_append, if_neg (lt_irrefl _)]
  simp

theorem merge_fold_inv (self other : PartialTree) :
    ∀ j : Nat,
      (List.range j).foldl
        (fun t i => PartialTree.upsertLayer t i (PartialTree.mergeCombinedLayer t other i))
        self =
        ⟨(List.range j).map (PartialTree.mergeCombinedLayer self other) ++
          self.layers.drop j⟩ := by
  intro j
  induction j with
  | zero => simp
  | succ j ih =>
    rw [List.range_succ, List.foldl_concat, ih, List.map_append]
    set mp : List Layer :=
      (List.range j).map (PartialTree.mergeCombinedLayer self other) with hmp
    have hmplen : mp.length = j := by simp [hmp]
    have hread : (⟨mp ++ self.layers.drop j⟩ : PartialTree).layers[j]? =
        self.layers[j]? := by
      show (mp ++ self.layers.drop j)[j]? = _
      rw [List.getElem?_append_right (by omega), hmplen, Nat.sub_self,
        List.getElem?_drop, Nat.add_zero]
    have hmcl : PartialTree.mergeCombinedLayer ⟨mp ++ self.layers.drop j⟩ other j =
        PartialTree.mergeCombinedLayer self other j := by
      unfold PartialTree.mergeCombinedLayer
      rw [hread]
    rw [hmcl]
    by_cases hlt : j < self.layers.length
    · have hlen : (mp ++ self.layers.drop j).length = self.layers.length := by
        simp [hmplen]
        omega
      have hdrop := List.drop_eq_getElem_cons hlt
      unfold PartialTree.upsertLayer
      rw [if_pos (by rw [hlen]; exact hlt)]
      show PartialTree.mk ((mp ++ self.layers.drop j).set j _) = _
      rw [hdrop, set_append_length mp _ _ _ j hmplen.symm]
      simp
    · have hdrop : self.layers.drop j = [] := List.drop_eq_nil_of_le (by omega)
      have hdrop' : self.layers.drop (j + 1) = [] := List.drop_eq_nil_of_le (by omega)
      unfold PartialTree.upsertLayer
      rw [hdrop, hdrop']
      rw [if_neg (by simp [hmplen])]
      simp

theorem merge_combined_size (a b : Nat) (h1 : a < 2 ^ 64) (h2 : b < 2 ^ 64) :
    (if usizeSub a b > 0 then a else b) = a := by
  have hp : (2 : Nat) ^ 64 = 18446744073709551616 := by norm_num
  by_cases he : a = b
  · subst he
    have hz : usizeSub a a = 0 := by unfold usizeSub; omega
    rw [hz]
    simp
  · have hz : usizeSub a b > 0 := by unfold usizeSub; omega
    rw [if_pos hz]

theorem merge_unverified_eq (self other : PartialTree)
    (h1 : self.layers.length < 2 ^ 64) (h2 : other.layers.length < 2 ^ 64) :
    PartialTree.merge_unverified self other =
      ⟨(List.range other.layers.length).map (PartialTree.mergeCombinedLayer self other) ++
        self.layers.drop other.layers.length⟩ := by
  unfold PartialTree.merge_unverified
  rw [merge_combined_size other.layers.length self.layers.length h2 h1]
  exact merge_fold_inv self other other.layers.length

/-- C4 counterexample: with `self` holding two layers (the upper one stored
unsorted) and `other` holding one, the loop bound `other.layers().len() -
self.layers().len()` wraps around, the merge runs only over `other`'s single
layer, and `self`'s upper layer is left untouched — not replaced by the
filtered-and-sorted combination the claim describes for every layer index
present in either tree. -/
theorem merge_unverified_counterexample :
    PartialTree.merge_unverified ⟨[[], [(1, [1]), (0, [2])]]⟩ ⟨[[]]⟩ ≠
      mergeUnverifiedSpec ⟨[[], [(1, [1]), (0, [2])]]⟩ ⟨[[]]⟩ := by
  decide

/-- C4 (amended): for layer indices below `other`'s layer count, `self`'s
layer is replaced by `self`'s nodes at positions not present in `other`'s
same layer followed by all of `other`'s nodes, stably sorted ascending by
position; `self`'s layers at indices at or above `other`'s layer count are
left unchanged (in particular, not re-sorted).  No hash is recomputed: the
result is assembled purely from the stored nodes of the two trees. -/
theorem merge_unverified_characterization (self other : PartialTree)
    (h1 : self.layers.length < 2 ^ 64) (h2 : other.layers.length < 2 ^ 64) :
    (PartialTree.merge_unverified self other).layers.length =
      max self.layers.length other.layers.length ∧
    (∀ i, i < other.layers.length →
      (PartialTree.merge_unverified self other).layers[i]? =
        some (PartialTree.mergeCombinedLayer self other i)) ∧
    (∀ i, other.layers.length ≤ i →
      (PartialTree.merge_unverified self other).layers[i]? = self.layers[i]?) := by
  rw [merge_unverified_eq self other h1 h2]
  refine ⟨?_, fun i hi => ?_, fun i hi => ?_⟩
  · simp
    omega
  · have hl : i < ((List.range other.layers.length).map
        (PartialTree.mergeCombinedLayer self other)).length := by simp [hi]
    show ((List.range other.layers.length).map
      (PartialTree.mergeCombinedLayer self other) ++
        self.layers.drop other.layers.length)[i]? = _
    rw [List.getElem?_append, if_pos hl, List.getElem?_map, List.getElem?_range hi]
    rfl
  · have hl : ((List.range other.layers.length).map
        (PartialTree.mergeCombinedLayer self other)).length ≤ i := by simp [hi]
    show ((List.range other.layers.length).map
      (PartialTree.mergeCombinedLayer self other) ++
        self.layers.drop other.layers.length)[i]? = _
    rw [List.getElem?_append_right hl, List.getElem?_drop]
    congr 1
    simp
    omega

/-- Witness for C4 (amended) at concrete trees where `other` is deeper. -/
theorem merge_unverified_characterization_witness :
    (PartialTree.merge_unverified ⟨[[(0, [5])]]⟩ ⟨[[(0, [6])], [(0, [7])]]⟩).layers.length = 2 := by
  have h := (merge_unverified_characterization ⟨[[(0, [5])]]⟩ ⟨[[(0, [6])], [(0, [7])]]⟩
    (by norm_num) (by norm_num)).1
  simpa using h

/-! # Claim C2 — `verify` as a total boolean function -/

/-- C2 counterexample: `verify` is not total.  With a proof holding zero
hashes where one position is required (two leaves, one claimed), the
`proof_copy.splice(0..1, [])` inside `root` is called on an empty vector and
panics (`none` in the model) instead of returning `false`; and a proof with
one surplus hash is *not* treated as a failure — the extra hash is ignored
and `verify` still returns `true`. -/
theorem verify_totality_counterexample :
    MerkleProof.verify ⟨false⟩ sampleConcat [] [9] [0] [[1]] 2 = none ∧
    MerkleProof.verify ⟨false⟩ sampleConcat [[20], [99]] [255, 10, 20] [0] [[10]] 2 =
      some true := by
  constructor
  · decide
  · decide

/-- C2 (amended): whenever `root` does not panic, `verify` is the boolean
collapse the claim describes — `true` exactly when `root` succeeds with the
given root, `false` on every error value; but `verify` inherits `root`'s
panic on a proof with fewer stored hashes than the required positions (and a
proof with surplus hashes is not a failure: the extra hashes are ignored). -/
theorem verify_iff_root (props : TreeProperties) (concat : ConcatFn)
    (proofHashes : List Hash) (expectedRoot : Hash) (leafIndices : List Nat)
    (leafHashes : List Hash) (total : Nat) :
    (MerkleProof.verify props concat proofHashes expectedRoot leafIndices leafHashes total =
        some true ↔
      MerkleProof.root props concat proofHashes leafIndices leafHashes total =
        .succeeds expectedRoot) ∧
    (MerkleProof.verify props concat proofHashes expectedRoot leafIndices leafHashes total =
        none ↔
      MerkleProof.root props concat proofHashes leafIndices leafHashes total = .panics) ∧
    (∀ e, MerkleProof.root props concat proofHashes leafIndices leafHashes total = .fails e →
      MerkleProof.verify props concat proofHashes expectedRoot leafIndices leafHashes total =
        some false) := by
  cases houtcome : MerkleProof.root props concat proofHashes leafIndices leafHashes total with
  | panics => simp [MerkleProof.verify, houtcome]
  | fails e => simp [MerkleProof.verify, houtcome]
  | succeeds h =>
    by_cases he : h = expectedRoot <;>
      simp [MerkleProof.verify, houtcome, he]

/-! # Sorted-list and index-arithmetic infrastructure (towards C1 and C6) -/

instance : IsAntisymm Nat (· < ·) :=
  ⟨fun _ _ h h' => absurd (Nat.lt_trans h h') (Nat.lt_irrefl _)⟩

theorem sortNat_perm (l : List Nat) : List.Perm (sortNat l) l := List.perm_insertionSort _ l

theorem sortNat_sorted (l : List Nat) : List.Sorted (· ≤ ·) (sortNat l) :=
  List.sorted_insertionSort _ l

theorem sortNat_mem {l : List Nat} {a : Nat} : a ∈ sortNat l ↔ a ∈ l :=
  (sortNat_perm l).mem_iff

theorem chain_lt_pairwise {l : List Nat} (h : l.Chain' (· < ·)) :
    List.Pairwise (· < ·) l := List.chain'_iff_pairwise.mp h

theorem chain_lt_nodup {l : List Nat} (h : l.Chain' (· < ·)) : l.Nodup :=
  (chain_lt_pairwise h).imp Nat.ne_of_lt

theorem chain_lt_sorted {l : List Nat} (h : l.Chain' (· < ·)) :
    List.Sorted (· < ·) l := chain_lt_pairwise h

theorem chain_lt_of_sorted_nodup {l : List Nat}
    (hs : List.Sorted (· ≤ ·) l) (hn : l.Nodup) : l.Chain' (· < ·) := by
  apply List.Pairwise.chain'
  induction l with
  | nil => exact List.Pairwise.nil
  | cons a t ih =>
    rw [List.sorted_cons] at hs
    rw [List.nodup_cons] at hn
    refine List.Pairwise.cons (fun b hb => ?_) (ih hs.2 hn.2)
    have hle := hs.1 b hb
    have hne : a ≠ b := fun he => hn.1 (he ▸ hb)
    omega

theorem sortedNat_ext {l₁ l₂ : List Nat} (h₁ : l₁.Chain' (· < ·)) (h₂ : l₂.Chain' (· < ·))
    (hm : ∀ a, a ∈ l₁ ↔ a ∈ l₂) : l₁ = l₂ :=
  List.eq_of_perm_of_sorted
    ((List.perm_ext_iff_of_nodup (chain_lt_nodup h₁) (chain_lt_nodup h₂)).mpr hm)
    (chain_lt_sorted h₁) (chain_lt_sorted h₂)

theorem sortNat_eq_of_perm {l₁ l₂ : List Nat} (h : List.Perm l₁ l₂) : sortNat l₁ = sortNat l₂ :=
  List.eq_of_perm_of_sorted ((sortNat_perm l₁).trans (h.trans (sortNat_perm l₂).symm))
    (sortNat_sorted l₁) (sortNat_sorted l₂)

theorem sortNat_chain {l : List Nat} (hn : l.Nodup) : (sortNat l).Chain' (· < ·) :=
  chain_lt_of_sorted_nodup (sortNat_sorted l) ((sortNat_perm l).nodup_iff.mpr hn)

theorem mem_dedupSorted : ∀ (l : List Nat) (a : Nat), a ∈ dedupSorted l ↔ a ∈ l := by
  intro l
  induction l with
  | nil => intro a; exact Iff.rfl
  | cons b t ih =>
    intro a
    cases t with
    | nil => exact Iff.rfl
    | cons c t' =>
      show a ∈ (if b = c then dedupSorted (c :: t') else b :: dedupSorted (c :: t')) ↔ _
      by_cases hbc : b = c
      · subst hbc
        rw [if_pos rfl, ih a]
        simp [List.mem_cons]
      · rw [if_neg hbc]
        simp [List.mem_cons, ih a]

theorem dedupSorted_chain : ∀ {l : List Nat}, List.Sorted (· ≤ ·) l →
    (dedupSorted l).Chain' (· < ·) := by
  intro l
  induction l with
  | nil => intro _; exact List.chain'_nil
  | cons b t ih =>
    intro hs
    rw [List.sorted_cons] at hs
    cases t with
    | nil => exact List.chain'_singleton b
    | cons c t' =>
      show List.Chain' _ (if b = c then dedupSorted (c :: t') else b :: dedupSorted (c :: t'))
      by_cases hbc : b = c
      · rw [if_pos hbc]; exact ih hs.2
      · rw [if_neg hbc]
        have hch := ih hs.2
        refine List.Chain'.cons' hch (fun y hy => ?_)
        have hyd : y ∈ dedupSorted (c :: t') := List.mem_of_mem_head? hy
        have hyct : y ∈ c :: t' := (mem_dedupSorted _ y).mp hyd
        have hbc' : b ≤ c := hs.1 c (by simp)
        have hcy : c ≤ y := by
          rcases List.mem_cons.mp hyct with rfl | hyt
          · exact le_rfl
          · exact (List.sorted_cons.mp hs.2).1 y hyt
        omega

theorem mem_parent_indices {ps : List Nat} {q : Nat} :
    q ∈ parent_indices ps ↔ ∃ p ∈ ps, p / 2 = q := by
  unfold parent_indices
  rw [mem_dedupSorted, sortNat_mem, List.mem_map]

theorem parent_indices_chain (ps : List Nat) : (parent_indices ps).Chain' (· < ·) :=
  dedupSorted_chain (sortNat_sorted _)

theorem parent_indices_perm {ps ps' : List Nat} (h : List.Perm ps ps') :
    parent_indices ps = parent_indices ps' := by
  unfold parent_indices
  rw [sortNat_eq_of_perm (h.map _)]

theorem parent_indices_ne_nil {ps : List Nat} (h : ps ≠ []) : parent_indices ps ≠ [] := by
  intro hc
  rcases List.exists_mem_of_ne_nil ps h with ⟨p, hp⟩
  have hm : p / 2 ∈ parent_indices ps := mem_parent_indices.mpr ⟨p, hp, rfl⟩
  rw [hc] at hm
  exact List.not_mem_nil _ hm

theorem parent_indices_range (m : Nat) :
    parent_indices (List.range m) = List.range ((m + 1) / 2) := by
  apply sortedNat_ext (parent_indices_chain _)
    ((List.pairwise_lt_range _).chain')
  intro a
  rw [mem_parent_indices]
  simp only [List.mem_range]
  constructor
  · rintro ⟨p, hp, rfl⟩; omega
  · intro ha; exact ⟨2 * a, by omega, by omega⟩

theorem map_fst_pair (f : Nat → Hash) (l : List Nat) :
    (l.map fun p => (p, f p)).map Prod.fst = l := by
  induction l with
  | nil => rfl
  | cons a t ih => simp only [List.map_cons, ih]

theorem unzip_map_pair (f : Nat → Hash) (l : List Nat) :
    (l.map fun p => (p, f p)).unzip = (l, l.map f) := by
  induction l with
  | nil => rfl
  | cons a t ih => simp [List.unzip_cons, ih]

theorem sortByFst_perm (l : Layer) : List.Perm (sortByFst l) l := List.perm_insertionSort _ l

theorem sortByFst_sorted (l : Layer) : List.Pairwise nodeLe (sortByFst l) :=
  List.sorted_insertionSort _ l

theorem pairwise_nodeLt_of_le {l : Layer} (hs : List.Pairwise nodeLe l)
    (hn : (l.map Prod.fst).Nodup) : List.Pairwise nodeLt l := by
  induction l with
  | nil => exact .nil
  | cons a t ih =>
    rw [List.pairwise_cons] at hs
    simp only [List.map_cons, List.nodup_cons] at hn
    refine List.Pairwise.cons (fun b hb => ?_) (ih hs.2 hn.2)
    have hle : a.1 ≤ b.1 := hs.1 b hb
    have hne : a.1 ≠ b.1 := fun he => hn.1 (he ▸ List.mem_map_of_mem Prod.fst hb)
    exact lt_of_le_of_ne hle hne

theorem sortByFst_eq_map {l : Layer} {ps : List Nat} {f : Nat → Hash}
    (hperm : List.Perm l (ps.map fun p => (p, f p))) (hps : ps.Chain' (· < ·)) :
    sortByFst l = ps.map fun p => (p, f p) := by
  have hperm' : List.Perm (sortByFst l) (ps.map fun p => (p, f p)) :=
    (sortByFst_perm l).trans hperm
  have hkeys : ((sortByFst l).map Prod.fst).Nodup := by
    have hp : List.Perm ((sortByFst l).map Prod.fst) ps := by
      have := hperm'.map Prod.fst
      rwa [map_fst_pair] at this
    exact hp.nodup_iff.mpr (chain_lt_nodup hps)
  exact @List.eq_of_perm_of_sorted Node nodeLt _ _ _ hperm'
    (pairwise_nodeLt_of_le (sortByFst_sorted l) hkeys)
    (List.pairwise_map.mpr (chain_lt_pairwise hps))

theorem lookupPos_map_pair (f : Nat → Hash) : ∀ (l : List Nat) (x : Nat),
    lookupPos (l.map fun p => (p, f p)) x = if x ∈ l then some (f x) else none := by
  intro l
  induction l with
  | nil => intro x; simp [lookupPos]
  | cons a t ih =>
    intro x
    by_cases hax : a = x
    · subst hax
      unfold lookupPos
      rw [List.map_cons, List.find?_cons_of_pos _ (by simp)]
      simp
    · unfold lookupPos
      rw [List.map_cons, List.find?_cons_of_neg _ (by simp [hax])]
      have hih := ih x
      unfold lookupPos at hih
      rw [hih]
      by_cases hxt : x ∈ t
      · rw [if_pos hxt, if_pos (List.mem_cons_of_mem a hxt)]
      · rw [if_neg hxt, if_neg (fun hc => by
          rcases List.mem_cons.mp hc with h1 | h1
          · exact hax h1.symm
          · exact hxt h1)]

theorem filterMap_eq_map_of_forall_some {α β : Type _} {f : α → Option β} {g : α → β} :
    ∀ {l : List α}, (∀ x ∈ l, f x = some (g x)) → l.filterMap f = l.map g := by
  intro l
  induction l with
  | nil => intro _; rfl
  | cons a t ih =>
    intro h
    rw [List.filterMap_cons, h a (by simp), List.map_cons,
      ih fun x hx => h x (by simp [hx])]

theorem sibling_sibling (p : Nat) : sibling (sibling p) = p := by
  unfold sibling
  split_ifs <;> omega

theorem sibling_even {p : Nat} (h : p % 2 = 0) : sibling p = p + 1 := by
  unfold sibling
  rw [if_pos h]

theorem contains_iff_mem {l : List Nat} {a : Nat} : l.contains a = true ↔ a ∈ l := by
  simp

theorem mem_reqLayer {known : List Nat} {len s : Nat} :
    s ∈ reqLayer known len ↔ s < len ∧ s ∉ known ∧ sibling s ∈ known := by
  unfold reqLayer
  rw [List.mem_filter, List.mem_range]
  simp only [Bool.and_eq_true, Bool.not_eq_true']
  constructor
  · rintro ⟨h1, h2, h3⟩
    refine ⟨h1, fun hmem => ?_, contains_iff_mem.mp h3⟩
    rw [contains_iff_mem.mpr hmem] at h2
    exact Bool.noConfusion h2
  · rintro ⟨h1, h2, h3⟩
    refine ⟨h1, ?_, contains_iff_mem.mpr h3⟩
    cases hc : known.contains s with
    | false => rfl
    | true => exact absurd (contains_iff_mem.mp hc) h2

theorem reqLayer_chain (known : List Nat) (len : Nat) :
    (reqLayer known len).Chain' (· < ·) :=
  ((List.pairwise_lt_range len).sublist (List.filter_sublist _)).chain'

theorem reqLayer_range_nil (m len : Nat) (h : len ≤ m) : reqLayer (List.range m) len = [] := by
  unfold reqLayer
  apply List.eq_nil_iff_forall_not_mem.mpr
  intro s hs
  rw [List.mem_filter] at hs
  rcases hs with ⟨hsr, hcond⟩
  rw [List.mem_range] at hsr
  have hct : (List.range m).contains s = true :=
    contains_iff_mem.mpr (List.mem_range.mpr (by omega))
  rw [hct] at hcond
  simp at hcond

theorem aligned_of_saturated (len : Nat) :
    ∀ (N : Nat) (U : List Nat), U.length ≤ N → U.Chain' (· < ·) →
      (∀ p ∈ U, p < len) → (∀ p ∈ U, sibling p ∈ U ∨ len ≤ sibling p) →
      alignedChunks U = true := by
  intro N
  induction N with
  | zero =>
    intro U hl _ _ _
    have hU : U = [] := List.eq_nil_of_length_eq_zero (by omega)
    rw [hU]
    rfl
  | succ N ih =>
    intro U hl hch hb hsat
    rcases U with _ | ⟨p, _ | ⟨q, t⟩⟩
    · rfl
    · show decide (p % 2 = 0) = true
      rw [decide_eq_true_eq]
      by_contra hodd
      have hps : sibling p = p - 1 := by unfold sibling; rw [if_neg hodd]
      rcases hsat p (by simp) with hin | hge
      · rw [hps] at hin
        simp only [List.mem_singleton] at hin
        omega
      · rw [hps] at hge
        have := hb p (by simp)
        omega
    · have hpw := chain_lt_pairwise hch
      rw [List.pairwise_cons] at hpw
      have hpw2 := hpw.2
      rw [List.pairwise_cons] at hpw2
      have hpe : p % 2 = 0 := by
        by_contra hodd
        have hps : sibling p = p - 1 := by unfold sibling; rw [if_neg hodd]
        rcases hsat p (by simp) with hin | hge
        · rw [hps] at hin
          rcases List.mem_cons.mp hin with h1 | hin'
          · omega
          · rcases List.mem_cons.mp hin' with h1 | hin''
            · have := hpw.1 q (by simp)
              omega
            · have := hpw.1 (p - 1) (by simp [hin''])
              omega
        · rw [hps] at hge
          have := hb p (by simp)
          omega
      have hq : q = p + 1 := by
        rcases hsat p (by simp) with hin | hge
        · rw [sibling_even hpe] at hin
          rcases List.mem_cons.mp hin with h1 | hin'
          · omega
          · rcases List.mem_cons.mp hin' with h1 | hin''
            · omega
            · have h2 := hpw2.1 (p + 1) hin''
              have h3 := hpw.1 q (by simp)
              omega
        · rw [sibling_even hpe] at hge
          have h2 := hb q (by simp)
          have h3 := hpw.1 q (by simp)
          omega
      subst hq
      show (decide (p % 2 = 0) && decide (p + 1 = p + 1) && alignedChunks t) = true
      rw [decide_eq_true hpe, decide_eq_true rfl, Bool.true_and, Bool.true_and]
      refine ih t (by simp at hl ⊢; omega) (hch.tail.tail)
        (fun x hx => hb x (by simp [hx])) (fun x hx => ?_)
      have hx2 : p + 1 < x := hpw2.1 x hx
      rcases hsat x (by simp [hx]) with hin | hge
      · left
        have hsibgt : p + 1 < sibling x := by
          unfold sibling
          split_ifs with hpar
          · omega
          · omega
        rcases List.mem_cons.mp hin with h1 | hin'
        · omega
        · rcases List.mem_cons.mp hin' with h1 | hin''
          · omega
          · exact hin''
      · right; exact hge

theorem pairNodesGo_shift (props : TreeProperties) (concat : ConcatFn) :
    ∀ (ps : List Nat) (nodes : List Hash) (i : Nat) (acc : Layer),
      PartialTree.pairNodesGo props concat nodes i ps acc =
        PartialTree.pairNodesGo props concat (nodes.drop (i * 2)) 0 ps acc := by
  intro ps
  induction ps with
  | nil => intro nodes i acc; rfl
  | cons p ps ih =>
    intro nodes i acc
    have e0 : (nodes.drop (i * 2))[0 * 2]? = nodes[i * 2]? := by
      rw [Nat.zero_mul, List.getElem?_drop, Nat.add_zero]
    have e1 : (nodes.drop (i * 2))[0 * 2 + 1]? = nodes[i * 2 + 1]? := by
      rw [List.getElem?_drop]
    cases hst : (if props.sorted_pair_enabled then
        PartialTree.sortedConcatAndHash concat nodes[i * 2]? nodes[i * 2 + 1]? acc p
      else
        PartialTree.unsortedConcatAndHash concat nodes[i * 2]? nodes[i * 2 + 1]? acc p) with
    | ok acc' =>
      have hL : PartialTree.pairNodesGo props concat nodes i (p :: ps) acc =
          PartialTree.pairNodesGo props concat nodes (i + 1) ps acc' := by
        simp [PartialTree.pairNodesGo, hst]
      have hR : PartialTree.pairNodesGo props concat (nodes.drop (i * 2)) 0 (p :: ps) acc =
          PartialTree.pairNodesGo props concat (nodes.drop (i * 2)) 1 ps acc' := by
        simp [PartialTree.pairNodesGo, e0, e1, hst]
      rw [hL, hR, ih nodes (i + 1) acc', ih (nodes.drop (i * 2)) 1 acc', List.drop_drop]
      have he : i * 2 + 1 * 2 = (i + 1) * 2 := by ring
      rw [he]
    | error e =>
      have hL : PartialTree.pairNodesGo props concat nodes i (p :: ps) acc = .error e := by
        simp [PartialTree.pairNodesGo, hst]
      have hR : PartialTree.pairNodesGo props concat (nodes.drop (i * 2)) 0 (p :: ps) acc =
          .error e := by
        simp [PartialTree.pairNodesGo, e0, e1, hst]
      rw [hL, hR]

theorem parent_indices_of_chain {l : List Nat} (h : l.Chain' (· < ·)) :
    parent_indices l = dedupSorted (l.map (· / 2)) := by
  unfold parent_indices
  congr 1
  apply List.Sorted.insertionSort_eq
  exact List.pairwise_map.mpr
    ((chain_lt_pairwise h).imp fun hlt => Nat.div_le_div_right (le_of_lt hlt))

theorem dedupSorted_cons_ne {a : Nat} {l : List Nat} (h : ∀ x ∈ l, a ≠ x) :
    dedupSorted (a :: l) = a :: dedupSorted l := by
  cases l with
  | nil => rfl
  | cons b t =>
    show (if a = b then _ else _) = _
    rw [if_neg (h b (by simp))]

theorem dedupSorted_cons_pair {a : Nat} {l : List Nat} :
    dedupSorted (a :: a :: l) = dedupSorted (a :: l) := by
  show (if a = a then _ else _) = _
  rw [if_pos rfl]

theorem parent_indices_single (p : Nat) : parent_indices [p] = [p / 2] := rfl

theorem parent_indices_nil : parent_indices [] = [] := rfl

theorem parent_indices_pair {p : Nat} {t : List Nat}
    (hch : (p :: (p + 1) :: t).Chain' (· < ·)) (hpe : p % 2 = 0) :
    parent_indices (p :: (p + 1) :: t) = p / 2 :: parent_indices t := by
  have hpw := chain_lt_pairwise hch
  rw [List.pairwise_cons] at hpw
  have hpw2 := hpw.2
  rw [List.pairwise_cons] at hpw2
  rw [parent_indices_of_chain hch]
  show dedupSorted (p / 2 :: (p + 1) / 2 :: t.map (· / 2)) = _
  have he : (p + 1) / 2 = p / 2 := by omega
  rw [he, dedupSorted_cons_pair, dedupSorted_cons_ne ?hne]
  · have hcht : List.Chain' (· < ·) t := hch.tail.tail
    rw [parent_indices_of_chain hcht]
  case hne =>
    intro x hx
    rcases List.mem_map.mp hx with ⟨y, hy, rfl⟩
    have hgt : p + 1 < y := hpw2.1 y hy
    omega

/-- The workhorse for C1 and C6: on a working layer whose ascending positions
form complete sibling pairs (with at most a trailing lone left child), the
slot-indexed pairing loop of `build_tree` produces exactly one parent per
parent index, combining the values stored at positions `2q` and `2q+1`. -/
theorem pairNodes_aligned (props : TreeProperties) (concat : ConcatFn) (f : Nat → Hash) :
    ∀ (N : Nat) (ps : List Nat), ps.length ≤ N → ps.Chain' (· < ·) →
      alignedChunks ps = true → ∀ acc : Layer,
      PartialTree.pairNodesGo props concat (ps.map f) 0 (parent_indices ps) acc =
        .ok (acc ++ (parent_indices ps).map fun q =>
          (q, combinePolicy props concat (f (2 * q))
            (if 2 * q + 1 ∈ ps then some (f (2 * q + 1)) else none))) := by
  intro N
  induction N with
  | zero =>
    intro ps hl _ _ acc
    have hps : ps = [] := List.eq_nil_of_length_eq_zero (by omega)
    subst hps
    rw [parent_indices_nil]
    simp [PartialTree.pairNodesGo]
  | succ N ih =>
    intro ps hl hch hal acc
    rcases ps with _ | ⟨p, _ | ⟨q, t⟩⟩
    · rw [parent_indices_nil]
      simp [PartialTree.pairNodesGo]
    · have hpe : p % 2 = 0 := by
        have h := hal
        simp only [alignedChunks, decide_eq_true_eq] at h
        exact h
      rw [parent_indices_single]
      have h2p : 2 * (p / 2) = p := by omega
      have hL : PartialTree.pairNodesGo props concat ([p].map f) 0 [p / 2] acc =
          .ok (acc ++ [(p / 2, concat (f p) none)]) := by
        cases hs : props.sorted_pair_enabled <;>
          simp [PartialTree.pairNodesGo, hs, PartialTree.sortedConcatAndHash,
            PartialTree.unsortedConcatAndHash]
      rw [hL]
      have hR : ([p / 2].map fun q =>
          (q, combinePolicy props concat (f (2 * q))
            (if 2 * q + 1 ∈ [p] then some (f (2 * q + 1)) else none))) =
          [(p / 2, concat (f p) none)] := by
        simp only [List.map_cons, List.map_nil]
        rw [h2p, if_neg (by simp)]
        rfl
      rw [hR]
    · have hals : p % 2 = 0 ∧ q = p + 1 ∧ alignedChunks t = true := by
        have h := hal
        simp only [alignedChunks, Bool.and_eq_true, decide_eq_true_eq] at h
        exact ⟨h.1.1, h.1.2, h.2⟩
      obtain ⟨hpe, hq, halt⟩ := hals
      subst hq
      have hpw := chain_lt_pairwise hch
      rw [List.pairwise_cons] at hpw
      have hpw2 := hpw.2
      rw [List.pairwise_cons] at hpw2
      rw [parent_indices_pair hch hpe]
      have h2p : 2 * (p / 2) = p := by omega
      have hn0 : ((p :: (p + 1) :: t).map f)[0 * 2]? = some (f p) := rfl
      have hn1 : ((p :: (p + 1) :: t).map f)[0 * 2 + 1]? = some (f (p + 1)) := by simp
      have hstep : (if props.sorted_pair_enabled then
          PartialTree.sortedConcatAndHash concat ((p :: (p + 1) :: t).map f)[0 * 2]?
            ((p :: (p + 1) :: t).map f)[0 * 2 + 1]? acc (p / 2)
        else
          PartialTree.unsortedConcatAndHash concat ((p :: (p + 1) :: t).map f)[0 * 2]?
            ((p :: (p + 1) :: t).map f)[0 * 2 + 1]? acc (p / 2)) =
          .ok (acc ++ [(p / 2, combinePolicy props concat (f p) (some (f (p + 1))))]) := by
        rw [hn0, hn1]
        cases hs : props.sorted_pair_enabled
        · simp [PartialTree.unsortedConcatAndHash, combinePolicy, hs]
        · simp only [PartialTree.sortedConcatAndHash, combinePolicy, hs, if_true]
          split_ifs <;> rfl
      have hL : PartialTree.pairNodesGo props concat ((p :: (p + 1) :: t).map f) 0
          (p / 2 :: parent_indices t) acc =
          PartialTree.pairNodesGo props concat ((p :: (p + 1) :: t).map f) 1
            (parent_indices t)
            (acc ++ [(p / 2, combinePolicy props concat (f p) (some (f (p + 1))))]) := by
        simp only [PartialTree.pairNodesGo]
        rw [hstep]
      rw [hL, pairNodesGo_shift]
      have hdrop : ((p :: (p + 1) :: t).map f).drop (1 * 2) = t.map f := rfl
      rw [hdrop, ih t (by simp at hl ⊢; omega) hch.tail.tail halt _]
      congr 1
      rw [List.append_assoc, List.singleton_append, List.map_cons, h2p,
        if_pos (show p + 1 ∈ p :: (p + 1) :: t by simp)]
      refine congrArg (fun tl => acc ++ tl) (congrArg (List.cons _) ?_)
      apply List.map_congr_left
      intro x hx
      rcases mem_parent_indices.mp hx with ⟨y, hy, rfl⟩
      have hgt : p + 1 < y := hpw2.1 y hy
      have hiff : (2 * (y / 2) + 1 ∈ t) ↔ (2 * (y / 2) + 1 ∈ p :: (p + 1) :: t) := by
        constructor
        · intro hin
          exact List.mem_cons_of_mem _ (List.mem_cons_of_mem _ hin)
        · intro hin
          rcases List.mem_cons.mp hin with h1 | hin'
          · omega
          · rcases List.mem_cons.mp hin' with h1 | hin''
            · omega
            · exact hin''
      rw [if_congr hiff rfl rfl]

/-! # Claim C6 — what `build_tree` pairs -/

theorem concatStep_policy (props : TreeProperties) (concat : ConcatFn)
    (l : Hash) (r? : Option Hash) (acc : Layer) (k : Nat) :
    (if props.sorted_pair_enabled then
      PartialTree.sortedConcatAndHash concat (some l) r? acc k
    else PartialTree.unsortedConcatAndHash concat (some l) r? acc k) =
      .ok (acc ++ [(k, combinePolicy props concat l r?)]) := by
  cases hs : props.sorted_pair_enabled
  · cases r? <;> simp [PartialTree.unsortedConcatAndHash, combinePolicy, hs]
  · cases r? with
    | none => simp [PartialTree.sortedConcatAndHash, combinePolicy, hs]
    | some r =>
      simp only [PartialTree.sortedConcatAndHash, combinePolicy, hs, if_true]
      split_ifs <;> rfl

theorem aligned_odd_pred : ∀ (N : Nat) (ps : List Nat), ps.length ≤ N →
    alignedChunks ps = true → ∀ y ∈ ps, y % 2 = 1 → y - 1 ∈ ps := by
  intro N
  induction N with
  | zero =>
    intro ps hl _ y hy _
    have hps : ps = [] := List.eq_nil_of_length_eq_zero (by omega)
    subst hps
    exact absurd hy (List.not_mem_nil y)
  | succ N ih =>
    intro ps hl hal y hy hodd
    rcases ps with _ | ⟨p, _ | ⟨q, t⟩⟩
    · exact absurd hy (List.not_mem_nil y)
    · simp only [alignedChunks, decide_eq_true_eq] at hal
      simp only [List.mem_singleton] at hy
      omega
    · simp only [alignedChunks, Bool.and_eq_true, decide_eq_true_eq] at hal
      obtain ⟨⟨hpe, hq⟩, halt⟩ := hal
      subst hq
      rcases List.mem_cons.mp hy with rfl | hy'
      · omega
      · rcases List.mem_cons.mp hy' with rfl | hy''
        · have hpp : p + 1 - 1 = p := by omega
          rw [hpp]
          simp
        · have := ih t (by simp at hl ⊢; omega) halt y hy'' hodd
          exact List.mem_cons_of_mem _ (List.mem_cons_of_mem _ this)

theorem left_child_mem {ps : List Nat} (hal : alignedChunks ps = true) {k : Nat}
    (hk : k ∈ parent_indices ps) : 2 * k ∈ ps := by
  rcases mem_parent_indices.mp hk with ⟨y, hy, rfl⟩
  by_cases he : y % 2 = 0
  · have h2 : 2 * (y / 2) = y := by omega
    rw [h2]
    exact hy
  · have hodd : y % 2 = 1 := by omega
    have hpred := aligned_odd_pred ps.length ps le_rfl hal y hy hodd
    have h2 : 2 * (y / 2) = y - 1 := by omega
    rw [h2]
    exact hpred

theorem pairByPositionsGo_aligned (props : TreeProperties) (concat : ConcatFn)
    (f : Nat → Hash) (ps : List Nat) :
    ∀ (ks : List Nat) (acc : Layer), (∀ k ∈ ks, 2 * k ∈ ps) →
      pairByPositionsGo props concat (ps.map fun p => (p, f p)) ks acc =
        .ok (acc ++ ks.map fun k =>
          (k, combinePolicy props concat (f (2 * k))
            (if 2 * k + 1 ∈ ps then some (f (2 * k + 1)) else none))) := by
  intro ks
  induction ks with
  | nil => intro acc _; simp [pairByPositionsGo]
  | cons k ks ih =>
    intro acc hmem
    have hlook0 : lookupPos (ps.map fun p => (p, f p)) (2 * k) = some (f (2 * k)) := by
      rw [lookupPos_map_pair, if_pos (hmem k (by simp))]
    have hlook1 : lookupPos (ps.map fun p => (p, f p)) (2 * k + 1) =
        if 2 * k + 1 ∈ ps then some (f (2 * k + 1)) else none :=
      lookupPos_map_pair f ps (2 * k + 1)
    have hL : pairByPositionsGo props concat (ps.map fun p => (p, f p)) (k :: ks) acc =
        pairByPositionsGo props concat (ps.map fun p => (p, f p)) ks
          (acc ++ [(k, combinePolicy props concat (f (2 * k))
            (if 2 * k + 1 ∈ ps then some (f (2 * k + 1)) else none))]) := by
      simp only [pairByPositionsGo, hlook0, hlook1]
      rw [concatStep_policy]
    rw [hL, ih _ fun x hx => hmem x (by simp [hx])]
    simp [List.append_assoc]

theorem pairByPositions_aligned (props : TreeProperties) (concat : ConcatFn)
    (f : Nat → Hash) {ps : List Nat} (hal : alignedChunks ps = true) :
    pairByPositions props concat (ps.map fun p => (p, f p)) =
      .ok ((parent_indices ps).map fun q =>
        (q, combinePolicy props concat (f (2 * q))
          (if 2 * q + 1 ∈ ps then some (f (2 * q + 1)) else none))) := by
  unfold pairByPositions
  rw [map_fst_pair,
    pairByPositionsGo_aligned props concat f ps (parent_indices ps) []
      fun k hk => left_child_mem hal hk]
  simp

/-- C6 counterexample: on the working layer `{1 ↦ h₁, 2 ↦ h₂, 3 ↦ h₃}` (left
sibling of the first pair absent), `build_tree` pairs by array slot, combining
the hashes stored at positions 1 and 2 — which are not siblings — into the
parent at position 0, and treating position 3 as a lone left child; pairing
by positions `(2k, 2k+1)` as the claim describes would instead find no left
node for parent 0 and fail. -/
theorem pairing_by_slots_counterexample :
    PartialTree.build_tree ⟨false⟩ sampleConcat [[(1, [1]), (2, [2]), (3, [3])]] 1 =
      .ok [[(1, [1]), (2, [2]), (3, [3])],
        [(0, [255, 1, 2]), (1, [255, 3, 7])]] ∧
    pairByPositions ⟨false⟩ sampleConcat [(1, [1]), (2, [2]), (3, [3])] =
      .error .notEnoughHelperNodes := by
  constructor
  · rfl
  · rfl

/-- C6 (amended): provided the sorted working layer consists of complete
sibling pairs `(2k, 2k+1)` with at most a trailing lone left child — the
shape every layer produced by the proof-position computation has — the
slot-indexed pairing loop of `build_tree` coincides with pairing the
positions `(2k, 2k+1)`: two present siblings are combined by the pairing
policy, and a position whose right sibling is absent becomes
`concatenate_and_hash(left, None)`. -/
theorem build_pairs_sibling_positions (props : TreeProperties) (concat : ConcatFn)
    (f : Nat → Hash) (ps : List Nat) (hch : ps.Chain' (· < ·))
    (hal : alignedChunks ps = true) :
    PartialTree.pairNodesGo props concat ((ps.map fun p => (p, f p)).unzip.2) 0
        (parent_indices ((ps.map fun p => (p, f p)).unzip.1)) [] =
      pairByPositions props concat (ps.map fun p => (p, f p)) ∧
    pairByPositions props concat (ps.map fun p => (p, f p)) =
      .ok ((parent_indices ps).map fun q =>
        (q, combinePolicy props concat (f (2 * q))
          (if 2 * q + 1 ∈ ps then some (f (2 * q + 1)) else none))) := by
  have hunzip := unzip_map_pair f ps
  have h2 := pairByPositions_aligned props concat f hal
  refine ⟨?_, h2⟩
  rw [hunzip, h2]
  have h1 := pairNodes_aligned props concat f ps.length ps le_rfl hch hal []
  rw [h1]
  simp

/-- Witness for C6 (amended) on the aligned layer `{0, 1, 2}`. -/
theorem build_pairs_sibling_positions_witness :
    pairByPositions ⟨false⟩ sampleConcat [(0, [10]), (1, [11]), (2, [12])] =
      .ok [(0, [255, 10, 11]), (1, [255, 12, 7])] := by
  have h := (build_pairs_sibling_positions ⟨false⟩ sampleConcat
    (fun p => [10 + p]) [0, 1, 2] (by simp [List.chain'_cons]) (by decide)).2
  rw [show ([0, 1, 2].map fun p => (p, [10 + p])) =
    ([(0, [10]), (1, [11]), (2, [12])] : Layer) from rfl] at h
  rw [h]
  rfl

/-! # Claim C1 — verification soundness -/

/-- One unfolding of the build loop when the working layer is empty and the
next helper layer is `L`. -/
theorem buildTreeGo_first (props : TreeProperties) (concat : ConcatFn)
    (L : Layer) (rest : List Layer) (d : Nat) (acc : List Layer) :
    PartialTree.buildTreeGo props concat (L :: rest) (d + 1) [] acc =
      (match PartialTree.pairNodesGo props concat (sortByFst L).unzip.2 0
          (parent_indices (sortByFst L).unzip.1) [] with
        | .ok next => PartialTree.buildTreeGo props concat rest d next (acc ++ [sortByFst L])
        | .error e => .error e) := by
  simp only [PartialTree.buildTreeGo, List.headD_cons, List.nil_append, List.tail_cons]

theorem range_chain (m : Nat) : (List.range m).Chain' (· < ·) :=
  (List.pairwise_lt_range m).chain'

theorem range_aligned (m : Nat) : alignedChunks (List.range m) = true :=
  aligned_of_saturated m (List.range m).length _ le_rfl (range_chain m)
    (fun p hp => List.mem_range.mp hp)
    (fun p _ => by
      by_cases hs : sibling p < m
      · exact Or.inl (List.mem_range.mpr hs)
      · exact Or.inr (by omega))

/-- The pairing step on a dense layer `0..m-1` with values `g` yields the
dense next layer `0..⌈m/2⌉-1` with the policy-combined values. -/
theorem pairNodes_dense (props : TreeProperties) (concat : ConcatFn) (g : Nat → Hash)
    (m : Nat) :
    PartialTree.pairNodesGo props concat ((List.range m).map g) 0
        (parent_indices (List.range m)) [] =
      .ok ((List.range ((m + 1) / 2)).map fun q =>
        (q, combinePolicy props concat (g (2 * q))
          (if 2 * q + 1 < m then some (g (2 * q + 1)) else none))) := by
  have h := pairNodes_aligned props concat g (List.range m).length (List.range m)
    le_rfl (range_chain m) (range_aligned m) []
  rw [h, parent_indices_range]
  simp only [List.nil_append]
  congr 1
  apply List.map_congr_left
  intro q _
  rw [if_congr List.mem_range rfl rfl]

/-- Building from a dense working layer with no helper layers left produces
the dense layers of the full tree, one per level. -/
theorem buildTreeGo_dense (props : TreeProperties) (concat : ConcatFn) (n : Nat)
    (f : Nat → Nat → Hash)
    (hf : ∀ j q, f (j + 1) q = combinePolicy props concat (f j (2 * q))
      (if 2 * q + 1 < lenAt n j then some (f j (2 * q + 1)) else none)) :
    ∀ (d k : Nat) (acc : List Layer),
      PartialTree.buildTreeGo props concat [] d
          ((List.range (lenAt n k)).map fun p => (p, f k p)) acc =
        .ok (acc ++ (List.range (d + 1)).map fun j =>
          (List.range (lenAt n (k + j))).map fun p => (p, f (k + j) p)) := by
  intro d
  induction d with
  | zero =>
    intro k acc
    show Except.ok (acc ++ [(List.range (lenAt n k)).map fun p => (p, f k p)]) = _
    simp [List.range_succ]
  | succ d ih =>
    intro k acc
    have hmerged : sortByFst ((((List.range (lenAt n k)).map fun p => (p, f k p))) ++
        ([] : List Layer).headD []) =
        (List.range (lenAt n k)).map fun p => (p, f k p) := by
      rw [List.headD_nil, List.append_nil]
      exact sortByFst_eq_map (List.Perm.refl _) (range_chain _)
    have hun := unzip_map_pair (f k) (List.range (lenAt n k))
    have hnext : ((List.range ((lenAt n k + 1) / 2)).map fun q =>
        (q, combinePolicy props concat (f k (2 * q))
          (if 2 * q + 1 < lenAt n k then some (f k (2 * q + 1)) else none))) =
        (List.range (lenAt n (k + 1))).map fun p => (p, f (k + 1) p) := by
      apply List.map_congr_left
      intro q _
      rw [hf k q]
    have hL : PartialTree.buildTreeGo props concat [] (d + 1)
        ((List.range (lenAt n k)).map fun p => (p, f k p)) acc =
        PartialTree.buildTreeGo props concat [] d
          ((List.range (lenAt n (k + 1))).map fun p => (p, f (k + 1) p))
          (acc ++ [(List.range (lenAt n k)).map fun p => (p, f k p)]) := by
      simp only [PartialTree.buildTreeGo, List.tail_nil]
      rw [hmerged, hun]
      rw [pairNodes_dense props concat (f k) (lenAt n k), hnext]
    rw [hL, ih (k + 1) _]
    congr 1
    rw [List.append_assoc, List.singleton_append]
    refine congrArg (fun tl => acc ++ tl) ?_
    conv_rhs => rw [List.range_succ_eq_map, List.map_cons, List.map_map]
    refine congrArg₂ List.cons ?_ ?_
    · rw [Nat.add_zero]
    · apply List.map_congr_left
      intro j _
      simp only [Function.comp_apply, Nat.succ_eq_add_one]
      have he : k + (j + 1) = k + 1 + j := by omega
      rw [he]

theorem enum_eq_range_map (l : List Hash) :
    l.enum = (List.range l.length).map fun p => (p, l.getD p []) := by
  apply List.ext_getElem?
  intro i
  by_cases hi : i < l.length
  · rw [List.getElem?_enum, List.getElem?_map, List.getElem?_range hi,
      List.getElem?_eq_getElem hi]
    simp [List.getD_eq_getElem?_getD, List.getElem?_eq_getElem hi]
  · rw [List.getElem?_eq_none (by rw [List.enum_length]; omega),
      List.getElem?_eq_none (by rw [List.length_map, List.length_range]; omega)]

theorem zip_self_map {α β : Type _} (g : α → β) :
    ∀ l : List α, l.zip (l.map g) = l.map fun a => (a, g a) := by
  intro l
  induction l with
  | nil => rfl
  | cons a t ih => simp only [List.map_cons, List.zip_cons_cons, ih]

/-- `from_leaves` on at least two leaves yields exactly the dense full tree:
layer `j` holds positions `0 .. ⌈n/2^j⌉ - 1` carrying the recursive node
values. -/
theorem from_leaves_layers (props : TreeProperties) (concat : ConcatFn)
    (leaves : List Hash) (hn : 2 ≤ leaves.length) :
    PartialTree.from_leaves props concat leaves =
      .ok ⟨(List.range (tree_depth leaves.length + 1)).map fun j =>
        (List.range (lenAt leaves.length j)).map fun p =>
          (p, nodeVal props concat leaves j p)⟩ := by
  have hd := tree_depth_two_le hn
  unfold PartialTree.from_leaves PartialTree.build PartialTree.build_tree
  rw [hd, buildTreeGo_first]
  have hsort : sortByFst leaves.enum =
      (List.range (lenAt leaves.length 0)).map fun p =>
        (p, nodeVal props concat leaves 0 p) := by
    apply sortByFst_eq_map ?_ (range_chain _)
    rw [show lenAt leaves.length 0 = leaves.length from rfl, enum_eq_range_map]
    exact List.Perm.refl _
  have hnext : ((List.range ((lenAt leaves.length 0 + 1) / 2)).map fun q =>
      (q, combinePolicy props concat (nodeVal props concat leaves 0 (2 * q))
        (if 2 * q + 1 < lenAt leaves.length 0 then
          some (nodeVal props concat leaves 0 (2 * q + 1)) else none))) =
      (List.range (lenAt leaves.length 1)).map fun p =>
        (p, nodeVal props concat leaves 1 p) := by
    apply List.map_congr_left
    intro q _
    rfl
  have hstep : (match PartialTree.pairNodesGo props concat
        (sortByFst leaves.enum).unzip.2 0
        (parent_indices (sortByFst leaves.enum).unzip.1) [] with
      | .ok next => PartialTree.buildTreeGo props concat []
          (tree_depth ((leaves.length + 1) / 2)) next ([] ++ [sortByFst leaves.enum])
      | .error e => .error e) =
      PartialTree.buildTreeGo props concat [] (tree_depth ((leaves.length + 1) / 2))
        ((List.range (lenAt leaves.length 1)).map fun p =>
          (p, nodeVal props concat leaves 1 p))
        [(List.range (lenAt leaves.length 0)).map fun p =>
          (p, nodeVal props concat leaves 0 p)] := by
    rw [hsort, unzip_map_pair, pairNodes_dense props concat
      (fun p => nodeVal props concat leaves 0 p) (lenAt leaves.length 0), hnext]
    rfl
  rw [hstep]
  rw [buildTreeGo_dense props concat leaves.length (nodeVal props concat leaves)
    (fun j q => rfl) (tree_depth ((leaves.length + 1) / 2)) 1 _]
  simp only [Except.map, List.nil_append]
  refine congrArg Except.ok (congrArg PartialTree.mk ?_)
  rw [List.singleton_append]
  conv_rhs => rw [List.range_succ_eq_map, List.map_cons, List.map_map]
  refine congrArg₂ List.cons rfl ?_
  apply List.map_congr_left
  intro j _
  simp only [Function.comp_apply, Nat.succ_eq_add_one]
  have he : 1 + j = j + 1 := by omega
  rw [he]

/-- The root of the tree `from_leaves` builds is the node value at the top
layer, position `0`. -/
theorem from_leaves_root (props : TreeProperties) (concat : ConcatFn)
    (leaves : List Hash) (hn : 2 ≤ leaves.length) (T : PartialTree)
    (hT : PartialTree.from_leaves props concat leaves = .ok T) :
    T.root = some (nodeVal props concat leaves (tree_depth leaves.length) 0) := by
  rw [from_leaves_layers props concat leaves hn] at hT
  injection hT with hT
  subst hT
  have h1 : lenAt leaves.length (tree_depth leaves.length) = 1 :=
    lenAt_tree_depth (by omega)
  unfold PartialTree.root
  simp only [List.range_succ, List.map_append, List.map_cons, List.map_nil,
    List.getLast?_concat, h1, Option.some_bind]
  simp [List.range_succ]

theorem union_nodup {K : List Nat} (len : Nat) (hch : K.Chain' (· < ·)) :
    (K ++ reqLayer K len).Nodup := by
  rw [List.nodup_append]
  refine ⟨chain_lt_nodup hch, chain_lt_nodup (reqLayer_chain K len), ?_⟩
  intro a haK haR
  exact (mem_reqLayer.mp haR).2.1 haK

theorem union_chain {K : List Nat} (len : Nat) (hch : K.Chain' (· < ·)) :
    (sortNat (K ++ reqLayer K len)).Chain' (· < ·) :=
  sortNat_chain (union_nodup len hch)

theorem union_mem {K : List Nat} {len a : Nat} :
    a ∈ sortNat (K ++ reqLayer K len) ↔ a ∈ K ∨ a ∈ reqLayer K len := by
  rw [sortNat_mem, List.mem_append]

theorem union_bound {K : List Nat} {len : Nat} (hb : ∀ p ∈ K, p < len) :
    ∀ p ∈ sortNat (K ++ reqLayer K len), p < len := by
  intro p hp
  rcases union_mem.mp hp with h | h
  · exact hb p h
  · exact (mem_reqLayer.mp h).1

theorem union_saturated {K : List Nat} {len : Nat} :
    ∀ p ∈ sortNat (K ++ reqLayer K len),
      sibling p ∈ sortNat (K ++ reqLayer K len) ∨ len ≤ sibling p := by
  intro p hp
  rcases union_mem.mp hp with hK | hR
  · by_cases hsK : sibling p ∈ K
    · exact Or.inl (union_mem.mpr (Or.inl hsK))
    · by_cases hlt : sibling p < len
      · exact Or.inl (union_mem.mpr (Or.inr (mem_reqLayer.mpr
          ⟨hlt, hsK, by rw [sibling_sibling]; exact hK⟩)))
      · exact Or.inr (by omega)
  · exact Or.inl (union_mem.mpr (Or.inl (mem_reqLayer.mp hR).2.2))

theorem union_aligned {K : List Nat} {len : Nat} (hch : K.Chain' (· < ·))
    (hb : ∀ p ∈ K, p < len) :
    alignedChunks (sortNat (K ++ reqLayer K len)) = true :=
  aligned_of_saturated len (sortNat (K ++ reqLayer K len)).length _ le_rfl
    (union_chain len hch) (union_bound hb) union_saturated

theorem union_ne_nil {K : List Nat} (len : Nat) (hne : K ≠ []) :
    sortNat (K ++ reqLayer K len) ≠ [] := by
  intro hc
  apply hne
  have := (sortNat_perm (K ++ reqLayer K len)).symm.length_eq
  rw [hc, List.length_nil, List.length_append] at this
  exact List.eq_nil_of_length_eq_zero (by omega)

theorem parent_indices_bound {K : List Nat} {len : Nat}
    (hb : ∀ p ∈ K, p < len) : ∀ q ∈ parent_indices K, q < (len + 1) / 2 := by
  intro q hq
  rcases mem_parent_indices.mp hq with ⟨p, hp, rfl⟩
  have := hb p hp
  omega

theorem chain_bound_one {kn : List Nat} (hne : kn ≠ []) (hch : kn.Chain' (· < ·))
    (hb : ∀ p ∈ kn, p < 1) : kn = [0] := by
  rcases kn with _ | ⟨a, t⟩
  · exact absurd rfl hne
  · have ha : a = 0 := by have := hb a (by simp); omega
    subst ha
    rcases t with _ | ⟨b, t'⟩
    · rfl
    · have hb0 : b < 1 := hb b (by simp)
      have hab : 0 < b := (List.chain'_cons.mp hch).1
      omega

/-- One pairing step of the reconstruction: on the saturated union of the
known positions and their required siblings, the slot-pairing loop produces
exactly one node per parent index, carrying the full tree's value one layer
up. -/
theorem step_pair (props : TreeProperties) (concat : ConcatFn) (n : Nat)
    (f : Nat → Nat → Hash)
    (hf : ∀ j q, f (j + 1) q = combinePolicy props concat (f j (2 * q))
      (if 2 * q + 1 < lenAt n j then some (f j (2 * q + 1)) else none))
    (k : Nat) (K U : List Nat)
    (hU : U = sortNat (K ++ reqLayer K (lenAt n k)))
    (hch : K.Chain' (· < ·)) (hb : ∀ p ∈ K, p < lenAt n k) :
    PartialTree.pairNodesGo props concat (U.map (f k)) 0 (parent_indices U) [] =
      .ok ((parent_indices U).map fun q => (q, f (k + 1) q)) := by
  have hchU : U.Chain' (· < ·) := hU ▸ union_chain (lenAt n k) hch
  have halU : alignedChunks U = true := hU ▸ union_aligned hch hb
  have hbU : ∀ p ∈ U, p < lenAt n k := hU ▸ union_bound hb
  have hsatU : ∀ p ∈ U, sibling p ∈ U ∨ lenAt n k ≤ sibling p :=
    hU ▸ union_saturated
  rw [pairNodes_aligned props concat (f k) U.length U le_rfl hchU halU [],
    List.nil_append]
  congr 1
  apply List.map_congr_left
  intro q hq
  rw [hf k q]
  have hiff : (2 * q + 1 ∈ U) ↔ (2 * q + 1 < lenAt n k) := by
    constructor
    · intro h
      exact hbU _ h
    · intro hlt
      rcases mem_parent_indices.mp hq with ⟨y, hy, rfl⟩
      by_cases hy2 : y % 2 = 0
      · have h2 : sibling y = 2 * (y / 2) + 1 := by
          unfold sibling
          rw [if_pos hy2]
          omega
        rcases hsatU y hy with hin | hge
        · rwa [h2] at hin
        · rw [h2] at hge
          omega
      · have h2 : 2 * (y / 2) + 1 = y := by omega
        rw [h2]
        exact hy
  rw [if_congr hiff rfl rfl]

/-- The master reconstruction loop: starting from the known positions `K` at
layer `k` with the required-sibling helper layers above, the build loop
succeeds and ends in a final working layer carrying the full tree's values at
a non-empty, ascending, bounded set of positions of layer `k + d`. -/
theorem buildLoop_master (props : TreeProperties) (concat : ConcatFn) (n : Nat)
    (f : Nat → Nat → Hash)
    (hf : ∀ j q, f (j + 1) q = combinePolicy props concat (f j (2 * q))
      (if 2 * q + 1 < lenAt n j then some (f j (2 * q + 1)) else none)) :
    ∀ (d k : Nat) (K : List Nat) (acc : List Layer),
      K ≠ [] → K.Chain' (· < ·) → (∀ p ∈ K, p < lenAt n k) →
      ∃ (mid : List Layer) (kn : List Nat),
        PartialTree.buildTreeGo props concat (reqLayers f n k K d) d
            (K.map fun p => (p, f k p)) acc =
          .ok (acc ++ mid ++ [kn.map fun p => (p, f (k + d) p)]) ∧
        kn ≠ [] ∧ kn.Chain' (· < ·) ∧ ∀ p ∈ kn, p < lenAt n (k + d) := by
  intro d
  induction d with
  | zero =>
    intro k K acc hne hch hb
    refine ⟨[], K, ?_, hne, hch, by simpa using hb⟩
    show Except.ok (acc ++ [K.map fun p => (p, f k p)]) = _
    simp
  | succ d ih =>
    intro k K acc hne hch hb
    have hreqc : reqLayers f n k K (d + 1) =
        ((reqLayer K (lenAt n k)).map fun p => (p, f k p)) ::
          reqLayers f n (k + 1)
            (parent_indices (K ++ reqLayer K (lenAt n k))) d := rfl
    have hmerged : sortByFst ((K.map fun p => (p, f k p)) ++
        ((reqLayer K (lenAt n k)).map fun p => (p, f k p))) =
        (sortNat (K ++ reqLayer K (lenAt n k))).map fun p => (p, f k p) := by
      apply sortByFst_eq_map ?_ (union_chain (lenAt n k) hch)
      rw [← List.map_append]
      exact List.Perm.map _ (sortNat_perm _).symm
    have hPU : parent_indices (sortNat (K ++ reqLayer K (lenAt n k))) =
        parent_indices (K ++ reqLayer K (lenAt n k)) :=
      parent_indices_perm (sortNat_perm _)
    have hKne : K ++ reqLayer K (lenAt n k) ≠ [] := by
      intro hc
      exact hne (List.append_eq_nil.mp hc).1
    have hstep : PartialTree.buildTreeGo props concat (reqLayers f n k K (d + 1))
        (d + 1) (K.map fun p => (p, f k p)) acc =
        PartialTree.buildTreeGo props concat
          (reqLayers f n (k + 1) (parent_indices (K ++ reqLayer K (lenAt n k))) d) d
          ((parent_indices (K ++ reqLayer K (lenAt n k))).map fun q =>
            (q, f (k + 1) q))
          (acc ++ [(sortNat (K ++ reqLayer K (lenAt n k))).map
            fun p => (p, f k p)]) := by
      rw [hreqc]
      simp only [PartialTree.buildTreeGo, List.headD_cons, List.tail_cons]
      rw [hmerged, unzip_map_pair,
        step_pair props concat n f hf k K _ rfl hch hb, hPU]
    have hbP : ∀ q ∈ parent_indices (K ++ reqLayer K (lenAt n k)),
        q < lenAt n (k + 1) := by
      have hball : ∀ p ∈ K ++ reqLayer K (lenAt n k), p < lenAt n k := by
        intro p hp
        rcases List.mem_append.mp hp with h | h
        · exact hb p h
        · exact (mem_reqLayer.mp h).1
      exact parent_indices_bound hball
    obtain ⟨mid, kn, hrun, hkne, hkch, hkb⟩ :=
      ih (k + 1) (parent_indices (K ++ reqLayer K (lenAt n k)))
        (acc ++ [(sortNat (K ++ reqLayer K (lenAt n k))).map fun p => (p, f k p)])
        (parent_indices_ne_nil hKne) (parent_indices_chain _) hbP
    have he : k + 1 + d = k + (d + 1) := by omega
    rw [he] at hrun hkb
    refine ⟨[(sortNat (K ++ reqLayer K (lenAt n k))).map fun p => (p, f k p)] ++ mid,
      kn, ?_, hkne, hkch, hkb⟩
    rw [hstep, hrun]
    simp [List.append_assoc]

/-- Splicing the extracted proof hashes back against the proof positions
recovers exactly the required-sibling helper layers, when the layers the
hashes were read from are the dense full-tree layers. -/
theorem splice_extract (f : Nat → Nat → Hash) (n : Nat) :
    ∀ (D k : Nat) (K : List Nat) (Ls : List Layer),
      (∀ j, j < D → Ls[j]? = some ((List.range (lenAt n (k + j))).map
        fun p => (p, f (k + j) p))) →
      MerkleProof.spliceLayers (piLoop K (lenAt n k) D)
          (proofHashesFor Ls (piLoop K (lenAt n k) D)) =
        some (reqLayers f n k K D) := by
  intro D
  induction D with
  | zero => intro k K Ls _; rfl
  | succ D ih =>
    intro k K Ls hLs
    rcases Ls with _ | ⟨L0, Ls'⟩
    · have h0 := hLs 0 (by omega)
      rw [List.getElem?_eq_none (by simp)] at h0
      exact Option.noConfusion h0
    have hL0 : L0 = (List.range (lenAt n k)).map fun p => (p, f k p) := by
      have h0 := hLs 0 (by omega)
      rw [List.getElem?_cons_zero] at h0
      have h0' := Option.some.inj h0
      rwa [Nat.add_zero] at h0'
    have hpic : piLoop K (lenAt n k) (D + 1) =
        reqLayer K (lenAt n k) ::
          piLoop (parent_indices (K ++ reqLayer K (lenAt n k)))
            ((lenAt n k + 1) / 2) D := rfl
    have hfm : (reqLayer K (lenAt n k)).filterMap (lookupPos L0) =
        (reqLayer K (lenAt n k)).map (f k) := by
      apply filterMap_eq_map_of_forall_some
      intro p hp
      rw [hL0, lookupPos_map_pair,
        if_pos (List.mem_range.mpr (mem_reqLayer.mp hp).1)]
    have hPH : proofHashesFor (L0 :: Ls') (piLoop K (lenAt n k) (D + 1)) =
        (reqLayer K (lenAt n k)).map (f k) ++
          proofHashesFor Ls'
            (piLoop (parent_indices (K ++ reqLayer K (lenAt n k)))
              ((lenAt n k + 1) / 2) D) := by
      rw [hpic]
      simp only [proofHashesFor, List.zip_cons_cons, List.map_cons,
        List.flatten_cons]
      rw [hfm]
    have hlen2 : ((lenAt n k + 1) / 2) = lenAt n (k + 1) := rfl
    have hLs' : ∀ j, j < D → Ls'[j]? = some ((List.range (lenAt n (k + 1 + j))).map
        fun p => (p, f (k + 1 + j) p)) := by
      intro j hj
      have h := hLs (j + 1) (by omega)
      rw [List.getElem?_cons_succ] at h
      have he : k + (j + 1) = k + 1 + j := by omega
      rwa [he] at h
    rw [hPH, hpic]
    simp only [MerkleProof.spliceLayers]
    rw [if_neg (by
      rw [List.length_append, List.length_map]
      omega)]
    rw [List.take_left' (by rw [List.length_map]),
      List.drop_left' (by rw [List.length_map]),
      hlen2, ih (k + 1) _ Ls' hLs']
    show some ((reqLayer K (lenAt n k)).zip
        ((reqLayer K (lenAt n k)).map (f k)) ::
      reqLayers f n (k + 1) (parent_indices (K ++ reqLayer K (lenAt n k))) D) =
      some (reqLayers f n k K (D + 1))
    refine congrArg some ?_
    rw [show reqLayers f n k K (D + 1) =
      ((reqLayer K (lenAt n k)).map fun p => (p, f k p)) ::
        reqLayers f n (k + 1)
          (parent_indices (K ++ reqLayer K (lenAt n k))) D from rfl]
    refine congrArg₂ List.cons ?_ rfl
    rw [zip_self_map]

/-- `MerkleProof::root` on the hashes extracted from the full tree over
`leaves` for the known positions `S` reconstructs exactly the full tree's
root value. -/
theorem proof_root_succeeds (props : TreeProperties) (concat : ConcatFn)
    (leaves : List Hash) (S : List Nat) (T : PartialTree)
    (hS : S ≠ []) (hch : S.Chain' (· < ·)) (hb : ∀ p ∈ S, p < leaves.length)
    (hn2 : 2 ≤ leaves.length)
    (hT : PartialTree.from_leaves props concat leaves = .ok T) :
    MerkleProof.root props concat
        (proofHashesFor T.layers (proof_indices_by_layers S leaves.length))
        S (S.map fun p => leaves.getD p []) leaves.length =
      .succeeds (nodeVal props concat leaves (tree_depth leaves.length) 0) := by
  have hd := tree_depth_two_le hn2
  have hTl : T.layers = (List.range (tree_depth leaves.length + 1)).map fun i =>
      (List.range (lenAt leaves.length i)).map fun p =>
        (p, nodeVal props concat leaves i p) := by
    rw [from_leaves_layers props concat leaves hn2] at hT
    injection hT with h
    rw [← h]
  have hLs : ∀ j, j < tree_depth leaves.length →
      ((List.range (tree_depth leaves.length + 1)).map fun i =>
        (List.range (lenAt leaves.length i)).map fun p =>
          (p, nodeVal props concat leaves i p))[j]? =
      some ((List.range (lenAt leaves.length (0 + j))).map
        fun p => (p, nodeVal props concat leaves (0 + j) p)) := by
    intro j hj
    rw [List.getElem?_map, List.getElem?_range (by omega), Nat.zero_add]
    rfl
  have hsplice := splice_extract (nodeVal props concat leaves) leaves.length
    (tree_depth leaves.length) 0 S
    ((List.range (tree_depth leaves.length + 1)).map fun i =>
      (List.range (lenAt leaves.length i)).map fun p =>
        (p, nodeVal props concat leaves i p)) hLs
  rw [show lenAt leaves.length 0 = leaves.length from rfl] at hsplice
  rw [hd] at hsplice
  have hm : sortByFst (((reqLayer S (lenAt leaves.length 0)).map fun p =>
      (p, nodeVal props concat leaves 0 p)) ++
      sortByFst (S.zip (S.map fun p => leaves.getD p []))) =
      (sortNat (S ++ reqLayer S (lenAt leaves.length 0))).map fun p =>
        (p, nodeVal props concat leaves 0 p) := by
    have hleaf : sortByFst (S.zip (S.map fun p => leaves.getD p [])) =
        S.map fun p => (p, nodeVal props concat leaves 0 p) := by
      rw [zip_self_map]
      exact sortByFst_eq_map (List.Perm.refl _) hch
    rw [hleaf]
    apply sortByFst_eq_map ?_ (union_chain _ hch)
    rw [← List.map_append]
    exact (List.perm_append_comm.map _).trans
      (List.Perm.map _ (sortNat_perm _).symm)
  have hpair0 := step_pair props concat leaves.length (nodeVal props concat leaves)
    (fun j q => rfl) 0 S (sortNat (S ++ reqLayer S (lenAt leaves.length 0)))
    rfl hch hb
  have hfirst : PartialTree.buildTreeGo props concat
      (((sortNat (S ++ reqLayer S (lenAt leaves.length 0))).map fun p =>
        (p, nodeVal props concat leaves 0 p)) ::
        reqLayers (nodeVal props concat leaves) leaves.length 1
          (parent_indices (S ++ reqLayer S (lenAt leaves.length 0)))
          (tree_depth ((leaves.length + 1) / 2)))
      (tree_depth ((leaves.length + 1) / 2) + 1) [] [] =
      PartialTree.buildTreeGo props concat
        (reqLayers (nodeVal props concat leaves) leaves.length 1
          (parent_indices (S ++ reqLayer S (lenAt leaves.length 0)))
          (tree_depth ((leaves.length + 1) / 2)))
        (tree_depth ((leaves.length + 1) / 2))
        ((parent_indices (S ++ reqLayer S (lenAt leaves.length 0))).map
          fun q => (q, nodeVal props concat leaves 1 q))
        [(sortNat (S ++ reqLayer S (lenAt leaves.length 0))).map
          fun p => (p, nodeVal props concat leaves 0 p)] := by
    rw [buildTreeGo_first]
    have hres : sortByFst ((sortNat (S ++ reqLayer S (lenAt leaves.length 0))).map
        fun p => (p, nodeVal props concat leaves 0 p)) =
        (sortNat (S ++ reqLayer S (lenAt leaves.length 0))).map
          fun p => (p, nodeVal props concat leaves 0 p) :=
      sortByFst_eq_map (List.Perm.refl _) (union_chain _ hch)
    rw [hres, unzip_map_pair, hpair0, parent_indices_perm (sortNat_perm _)]
    rfl
  have hK1ne : parent_indices (S ++ reqLayer S (lenAt leaves.length 0)) ≠ [] :=
    parent_indices_ne_nil (fun hc => hS (List.append_eq_nil.mp hc).1)
  have hK1b : ∀ q ∈ parent_indices (S ++ reqLayer S (lenAt leaves.length 0)),
      q < lenAt leaves.length 1 := by
    apply parent_indices_bound
    intro p hp
    rcases List.mem_append.mp hp with h | h
    · exact hb p h
    · exact (mem_reqLayer.mp h).1
  obtain ⟨mid, kn, hrun, hkne, hkch, hkb⟩ :=
    buildLoop_master props concat leaves.length (nodeVal props concat leaves)
      (fun j q => rfl) (tree_depth ((leaves.length + 1) / 2)) 1
      (parent_indices (S ++ reqLayer S (lenAt leaves.length 0)))
      [(sortNat (S ++ reqLayer S (lenAt leaves.length 0))).map fun p =>
        (p, nodeVal props concat leaves 0 p)]
      hK1ne (parent_indices_chain _) hK1b
  have he : 1 + tree_depth ((leaves.length + 1) / 2) =
      tree_depth ((leaves.length + 1) / 2) + 1 := by omega
  rw [he] at hrun hkb
  have hlt := lenAt_tree_depth (show 1 ≤ leaves.length by omega)
  rw [hd] at hlt
  have hkn : kn = [0] := chain_bound_one hkne hkch (fun p hp => hlt ▸ hkb p hp)
  rw [hkn] at hrun
  simp only [List.map_cons, List.map_nil] at hrun
  have hbuild : PartialTree.build_tree props concat
      (((sortNat (S ++ reqLayer S (lenAt leaves.length 0))).map fun p =>
        (p, nodeVal props concat leaves 0 p)) ::
        reqLayers (nodeVal props concat leaves) leaves.length 1
          (parent_indices (S ++ reqLayer S (lenAt leaves.length 0)))
          (tree_depth ((leaves.length + 1) / 2)))
      (tree_depth ((leaves.length + 1) / 2) + 1) =
      .ok ([(sortNat (S ++ reqLayer S (lenAt leaves.length 0))).map fun p =>
          (p, nodeVal props concat leaves 0 p)] ++ mid ++
        [[(0, nodeVal props concat leaves
          (tree_depth ((leaves.length + 1) / 2) + 1) 0)]]) := by
    unfold PartialTree.build_tree
    rw [hfirst, hrun]
  have hroot : PartialTree.root
      ⟨[(sortNat (S ++ reqLayer S (lenAt leaves.length 0))).map fun p =>
        (p, nodeVal props concat leaves 0 p)] ++ mid ++
        [[(0, nodeVal props concat leaves
          (tree_depth ((leaves.length + 1) / 2) + 1) 0)]]⟩ =
      some (nodeVal props concat leaves
        (tree_depth ((leaves.length + 1) / 2) + 1) 0) := by
    unfold PartialTree.root
    rw [List.getLast?_concat]
    rfl
  have hfinal : (match PartialTree.build_tree props concat
      (sortByFst (((reqLayer S (lenAt leaves.length 0)).map fun p =>
        (p, nodeVal props concat leaves 0 p)) ++
        sortByFst (S.zip (S.map fun p => leaves.getD p []))) ::
        reqLayers (nodeVal props concat leaves) leaves.length 1
          (parent_indices (S ++ reqLayer S (lenAt leaves.length 0)))
          (tree_depth ((leaves.length + 1) / 2)))
      (tree_depth ((leaves.length + 1) / 2) + 1) with
    | Except.error e => RootOutcome.fails e
    | Except.ok tree =>
      (match PartialTree.root ⟨tree⟩ with
        | some r => RootOutcome.succeeds r
        | none => RootOutcome.fails Error.notEnoughHashesToCalculateRoot)) =
      RootOutcome.succeeds (nodeVal props concat leaves
        (tree_depth ((leaves.length + 1) / 2) + 1) 0) := by
    rw [hm, hbuild]
    show (match PartialTree.root
        (⟨[(sortNat (S ++ reqLayer S (lenAt leaves.length 0))).map fun p =>
          (p, nodeVal props concat leaves 0 p)] ++ mid ++
          [[(0, nodeVal props concat leaves
            (tree_depth ((leaves.length + 1) / 2) + 1) 0)]]⟩ : PartialTree) with
      | some r => RootOutcome.succeeds r
      | none => RootOutcome.fails Error.notEnoughHashesToCalculateRoot) =
      RootOutcome.succeeds (nodeVal props concat leaves
        (tree_depth ((leaves.length + 1) / 2) + 1) 0)
    rw [hroot]
  rw [hTl]
  simp only [MerkleProof.root]
  rw [if_neg (by simp)]
  rw [show proof_indices_by_layers S leaves.length =
    piLoop S leaves.length (tree_depth leaves.length) from rfl]
  rw [hd, hsplice]
  exact hfinal

/-! # Claim C1 — verification soundness -/

/-- C1: for every leaf set `L`, every non-empty set `S` of its positions
(listed ascending), and a tree built from `L` with a given configuration
(any pairing policy and hashing capability), the proof extracted for `S`
verifies against the tree's root: `verify(root(L), S, hashes_at(S), len(L))`
returns `true`. -/
theorem verification_soundness (props : TreeProperties) (concat : ConcatFn)
    (leaves : List Hash) (S : List Nat) (T : PartialTree) (r : Hash)
    (hS : S ≠ []) (hch : S.Chain' (· < ·)) (hb : ∀ p ∈ S, p < leaves.length)
    (hT : PartialTree.from_leaves props concat leaves = .ok T)
    (hr : T.root = some r) :
    MerkleProof.verify props concat
      (proofHashesFor T.layers (proof_indices_by_layers S leaves.length))
      r S (S.map fun p => leaves.getD p []) leaves.length = some true := by
  have hn2 : 2 ≤ leaves.length := by
    by_contra hc
    push_neg at hc
    have h0 : tree_depth leaves.length = 0 := tree_depth_le_one (by omega)
    unfold PartialTree.from_leaves PartialTree.build PartialTree.build_tree at hT
    rw [h0] at hT
    have h1 : PartialTree.buildTreeGo props concat [leaves.enum] 0 [] [] =
        .ok [[]] := rfl
    rw [h1] at hT
    simp only [Except.map] at hT
    injection hT with hT
    rw [← hT] at hr
    simp [PartialTree.root] at hr
  have hrs := proof_root_succeeds props concat leaves S T hS hch hb hn2 hT
  have hv := from_leaves_root props concat leaves hn2 T hT
  rw [hv] at hr
  have hreq : r = nodeVal props concat leaves (tree_depth leaves.length) 0 :=
    (Option.some.inj hr).symm
  subst hreq
  unfold MerkleProof.verify
  rw [hrs]
  simp

/-- Witness for C1: the two-leaf tree over `[[1], [2]]` with `S = {0}` under
the unsorted pairing policy — the extracted one-hash proof verifies. -/
theorem verification_soundness_witness :
    MerkleProof.verify ⟨false⟩ sampleConcat
      (proofHashesFor ([[(0, [1]), (1, [2])], [(0, [255, 1, 2])]] : List Layer)
        (proof_indices_by_layers [0] 2))
      [255, 1, 2] [0] ([0].map fun p => ([[1], [2]] : List Hash).getD p [])
      2 = some true :=
  verification_soundness ⟨false⟩ sampleConcat [[1], [2]] [0]
    ⟨[[(0, [1]), (1, [2])], [(0, [255, 1, 2])]]⟩ [255, 1, 2]
    (by decide) (by simp) (by decide) (by rfl) (by rfl)

end RsMerkle
